import Mathlib

/-!
Verification of the Electric_simulation core modules
(`src/core/grid_builder.py`, `src/core/power_flow.py`, `src/core/sensors.py`)
against their specification.  The Python code is shallowly embedded:
networkx graphs become explicit node/edge lists, Python dicts become
association lists, floats become exact rationals, and mutation of the
grid is modelled by state passing.
-/

namespace ElecSim

/-! ### Undirected reachability over an explicit edge list

The networkx primitives used by the code (`nx.descendants`,
`nx.is_connected`, `nx.connected_components`, `nx.bridges`) are modelled
on top of the executable closure `reachSet`, which is proved equivalent
to the inductive reachability predicate `Reach`. -/

/-- `a` and `b` are joined by some edge of `E` (in either orientation). -/
def adjacent (E : List (Nat × Nat)) (a b : Nat) : Bool :=
  E.any fun e => (e.1 == a && e.2 == b) || (e.1 == b && e.2 == a)

/-- All endpoints occurring in the edge list. -/
def nodesOf (E : List (Nat × Nat)) : List Nat :=
  E.foldr (fun e acc => e.1 :: e.2 :: acc) []

/-- Undirected reachability from `s` through the edges of `E`. -/
inductive Reach (E : List (Nat × Nat)) (s : Nat) : Nat → Prop
  | refl : Reach E s s
  | step {a b : Nat} : Reach E s a → adjacent E a b = true → Reach E s b

theorem adjacent_iff {E : List (Nat × Nat)} {a b : Nat} :
    adjacent E a b = true ↔ ∃ e ∈ E, (e.1 = a ∧ e.2 = b) ∨ (e.1 = b ∧ e.2 = a) := by
  simp [adjacent, List.any_eq_true]

theorem adjacent_comm {E : List (Nat × Nat)} {a b : Nat} :
    adjacent E a b = adjacent E b a := by
  simp only [adjacent]
  congr 1
  funext e
  rcases e with ⟨x, y⟩
  simp only [Bool.or_comm]

theorem mem_nodesOf {E : List (Nat × Nat)} {e : Nat × Nat} (he : e ∈ E) :
    e.1 ∈ nodesOf E ∧ e.2 ∈ nodesOf E := by
  induction E with
  | nil => cases he
  | cons x xs ih =>
    rcases List.mem_cons.mp he with rfl | he
    · simp [nodesOf]
    · have := ih he
      simp only [nodesOf, List.foldr_cons] at *
      exact ⟨by simp [this.1], by simp [this.2]⟩

theorem adjacent_mem_nodesOf {E : List (Nat × Nat)} {a b : Nat}
    (h : adjacent E a b = true) : a ∈ nodesOf E ∧ b ∈ nodesOf E := by
  rcases adjacent_iff.mp h with ⟨e, he, hcase⟩
  have hmem := mem_nodesOf he
  rcases hcase with ⟨h1, h2⟩ | ⟨h1, h2⟩
  · exact ⟨h1 ▸ hmem.1, h2 ▸ hmem.2⟩
  · exact ⟨h2 ▸ hmem.2, h1 ▸ hmem.1⟩

/-- One round of closure expansion: add every node adjacent to the set. -/
def expandOnce (E : List (Nat × Nat)) (S : List Nat) : List Nat :=
  S ++ (nodesOf E).dedup.filter fun b => !S.contains b && S.any fun a => adjacent E a b

theorem mem_expandOnce {E : List (Nat × Nat)} {S : List Nat} {b : Nat} :
    b ∈ expandOnce E S ↔ b ∈ S ∨ ∃ a ∈ S, adjacent E a b = true := by
  constructor
  · intro h
    rcases List.mem_append.mp h with h | h
    · exact Or.inl h
    · have := List.mem_filter.mp h
      rcases this with ⟨_, hp⟩
      simp only [List.contains, Bool.and_eq_true, Bool.not_eq_true', List.elem_eq_mem,
        List.any_eq_true, decide_eq_false_iff_not] at hp
      exact Or.inr hp.2
  · intro h
    by_cases hb : b ∈ S
    · exact List.mem_append.mpr (Or.inl hb)
    · rcases h with h | ⟨a, ha, hadj⟩
      · exact absurd h hb
      · refine List.mem_append.mpr (Or.inr (List.mem_filter.mpr ⟨?_, ?_⟩))
        · exact List.mem_dedup.mpr (adjacent_mem_nodesOf hadj).2
        · simp only [List.contains, Bool.and_eq_true, Bool.not_eq_true', List.elem_eq_mem,
            List.any_eq_true, decide_eq_false_iff_not]
          exact ⟨hb, a, ha, hadj⟩

theorem subset_expandOnce {E : List (Nat × Nat)} {S : List Nat} :
    S ⊆ expandOnce E S := fun _ h => List.mem_append.mpr (Or.inl h)

theorem nodup_expandOnce {E : List (Nat × Nat)} {S : List Nat} (h : S.Nodup) :
    (expandOnce E S).Nodup := by
  refine List.Nodup.append h ((List.nodup_dedup _).filter _) ?_
  intro x hx hx2
  have := (List.mem_filter.mp hx2).2
  simp only [List.contains, Bool.and_eq_true, Bool.not_eq_true', List.elem_eq_mem,
    decide_eq_false_iff_not] at this
  exact this.1 hx

/-- Iterated closure expansion. -/
def reachAux (E : List (Nat × Nat)) (s : Nat) : Nat → List Nat
  | 0 => [s]
  | n + 1 => expandOnce E (reachAux E s n)

theorem reachAux_sound {E : List (Nat × Nat)} {s : Nat} :
    ∀ {n b}, b ∈ reachAux E s n → Reach E s b := by
  intro n
  induction n with
  | zero =>
    intro b hb
    simp only [reachAux, List.mem_singleton] at hb
    exact hb ▸ Reach.refl
  | succ n ih =>
    intro b hb
    rcases mem_expandOnce.mp hb with h | ⟨a, ha, hadj⟩
    · exact ih h
    · exact Reach.step (ih ha) hadj

theorem reachAux_mono_succ {E : List (Nat × Nat)} {s : Nat} {n : Nat} :
    reachAux E s n ⊆ reachAux E s (n + 1) := subset_expandOnce

theorem reachAux_mono {E : List (Nat × Nat)} {s : Nat} {m n : Nat} (h : m ≤ n) :
    reachAux E s m ⊆ reachAux E s n := by
  induction h with
  | refl => exact fun _ h => h
  | step _ ih => exact fun x hx => reachAux_mono_succ (ih hx)

theorem reachAux_nodup {E : List (Nat × Nat)} {s : Nat} :
    ∀ n, (reachAux E s n).Nodup := by
  intro n
  induction n with
  | zero => simp [reachAux]
  | succ n ih => exact nodup_expandOnce ih

theorem reachAux_subset {E : List (Nat × Nat)} {s : Nat} :
    ∀ n, reachAux E s n ⊆ s :: nodesOf E := by
  intro n
  induction n with
  | zero => intro b hb; simp only [reachAux, List.mem_singleton] at hb; simp [hb]
  | succ n ih =>
    intro b hb
    rcases mem_expandOnce.mp hb with h | ⟨a, _, hadj⟩
    · exact ih h
    · exact List.mem_cons_of_mem _ (adjacent_mem_nodesOf hadj).2

/-- A node set closed under adjacency. -/
def Closed (E : List (Nat × Nat)) (S : List Nat) : Prop :=
  ∀ a ∈ S, ∀ b, adjacent E a b = true → b ∈ S

theorem expandOnce_eq_of_closed {E : List (Nat × Nat)} {S : List Nat}
    (h : Closed E S) : expandOnce E S = S := by
  have hnil : ((nodesOf E).dedup.filter fun b =>
      !S.contains b && S.any fun a => adjacent E a b) = [] := by
    refine List.filter_eq_nil_iff.mpr ?_
    intro b _
    simp only [List.contains, Bool.and_eq_true, Bool.not_eq_true', List.elem_eq_mem,
      List.any_eq_true, decide_eq_false_iff_not, not_and]
    intro hb
    rintro ⟨a, ha, hadj⟩
    exact hb (h a ha b hadj)
  show S ++ _ = S
  rw [hnil, List.append_nil]

theorem length_lt_of_not_closed {E : List (Nat × Nat)} {S : List Nat}
    (hnd : S.Nodup) (h : ¬ Closed E S) :
    S.length < (expandOnce E S).length := by
  simp only [Closed, not_forall] at h
  rcases h with ⟨a, ha, b, hadj, hb⟩
  have hbmem : b ∈ expandOnce E S := mem_expandOnce.mpr (Or.inr ⟨a, ha, hadj⟩)
  have hndE : (expandOnce E S).Nodup := nodup_expandOnce hnd
  have hsub : S.toFinset ⊆ (expandOnce E S).toFinset := by
    intro x hx
    exact List.mem_toFinset.mpr (subset_expandOnce (List.mem_toFinset.mp hx))
  have hss : S.toFinset ⊂ (expandOnce E S).toFinset := by
    refine ⟨hsub, fun hcon => ?_⟩
    exact hb (List.mem_toFinset.mp (hcon (List.mem_toFinset.mpr hbmem)))
  have := Finset.card_lt_card hss
  rwa [List.toFinset_card_of_nodup hnd, List.toFinset_card_of_nodup hndE] at this

theorem reachAux_stable {E : List (Nat × Nat)} {s : Nat} {n : Nat}
    (h : Closed E (reachAux E s n)) :
    ∀ m, n ≤ m → reachAux E s m = reachAux E s n := by
  intro m hm
  induction hm with
  | refl => rfl
  | step _ ih =>
    show expandOnce E _ = _
    rw [ih, expandOnce_eq_of_closed h]

theorem reachAux_growth {E : List (Nat × Nat)} {s : Nat} :
    ∀ n, Closed E (reachAux E s n) ∨ n + 1 ≤ (reachAux E s n).length := by
  intro n
  induction n with
  | zero => right; simp [reachAux]
  | succ n ih =>
    by_cases hc : Closed E (reachAux E s n)
    · left
      show Closed E (expandOnce E _)
      rw [expandOnce_eq_of_closed hc]
      exact hc
    · rcases ih with h | h
      · exact absurd h hc
      · right
        have hlt := length_lt_of_not_closed (reachAux_nodup n) hc
        have heq : reachAux E s (n + 1) = expandOnce E (reachAux E s n) := rfl
        rw [heq]
        omega

theorem length_reachAux_le {E : List (Nat × Nat)} {s : Nat} (n : Nat) :
    (reachAux E s n).length ≤ (nodesOf E).length + 1 := by
  have hnd := @reachAux_nodup E s n
  have hsub := @reachAux_subset E s n
  have h1 : (reachAux E s n).toFinset ⊆ (s :: nodesOf E).toFinset := by
    intro x hx
    exact List.mem_toFinset.mpr (hsub (List.mem_toFinset.mp hx))
  have h2 := Finset.card_le_card h1
  rw [List.toFinset_card_of_nodup hnd] at h2
  calc (reachAux E s n).length ≤ (s :: nodesOf E).toFinset.card := h2
    _ ≤ (s :: nodesOf E).length := List.toFinset_card_le _
    _ = (nodesOf E).length + 1 := by simp

theorem reachAux_closed_at_bound (E : List (Nat × Nat)) (s : Nat) :
    Closed E (reachAux E s ((nodesOf E).length + 1)) := by
  rcases @reachAux_growth E s ((nodesOf E).length + 1) with h | h
  · exact h
  · have := @length_reachAux_le E s ((nodesOf E).length + 1)
    omega

/-- Executable reachable set (models `nx.descendants(G, s) | {s}`). -/
def reachSet (E : List (Nat × Nat)) (s : Nat) : List Nat :=
  reachAux E s ((nodesOf E).length + 1)

theorem self_mem_reachSet (E : List (Nat × Nat)) (s : Nat) : s ∈ reachSet E s :=
  reachAux_mono (Nat.zero_le _) (by simp [reachAux])

theorem mem_reachSet_iff {E : List (Nat × Nat)} {s b : Nat} :
    b ∈ reachSet E s ↔ Reach E s b := by
  constructor
  · exact reachAux_sound
  · intro h
    induction h with
    | refl => exact self_mem_reachSet E s
    | step ha hadj ih => exact reachAux_closed_at_bound E s _ ih _ hadj

theorem Reach.trans {E : List (Nat × Nat)} {s a b : Nat}
    (h1 : Reach E s a) (h2 : Reach E a b) : Reach E s b := by
  induction h2 with
  | refl => exact h1
  | step _ hadj ih => exact Reach.step ih hadj

theorem Reach.symm {E : List (Nat × Nat)} {s a : Nat}
    (h : Reach E s a) : Reach E a s := by
  induction h with
  | refl => exact Reach.refl
  | step _ hadj ih =>
    refine Reach.trans ?_ ih
    exact Reach.step Reach.refl (adjacent_comm ▸ hadj)

/-- Reachability only depends on the adjacency relation of the edge list. -/
theorem reach_congr {E F : List (Nat × Nat)} {s b : Nat}
    (h : ∀ a c, adjacent E a c = adjacent F a c) (hr : Reach E s b) :
    Reach F s b := by
  induction hr with
  | refl => exact Reach.refl
  | step _ hadj ih => exact Reach.step ih (h _ _ ▸ hadj)

theorem mem_nodesOf_iff {E : List (Nat × Nat)} {x : Nat} :
    x ∈ nodesOf E ↔ ∃ e ∈ E, x = e.1 ∨ x = e.2 := by
  induction E with
  | nil => simp [nodesOf]
  | cons e es ih =>
    simp only [nodesOf, List.foldr_cons, List.mem_cons] at *
    constructor
    · rintro (rfl | rfl | h)
      · exact ⟨e, Or.inl rfl, Or.inl rfl⟩
      · exact ⟨e, Or.inl rfl, Or.inr rfl⟩
      · rcases ih.mp h with ⟨f, hf, hx⟩
        exact ⟨f, Or.inr hf, hx⟩
    · rintro ⟨f, hf | hf, hx⟩
      · subst hf
        rcases hx with rfl | rfl
        · exact Or.inl rfl
        · exact Or.inr (Or.inl rfl)
      · exact Or.inr (Or.inr (ih.mpr ⟨f, hf, hx⟩))

/-! ### Data model
Embeds `GridNetwork` from `src/core/grid_builder.py`.  The networkx graph
`G` is represented by its node list (insertion order) and edge list
(insertion order, one entry per undirected edge).  The `line_data` field
of the Python class is not modelled: it aliases the very dicts stored in
`line_list` and no claim depends on it.  Floats are modelled by exact
rationals. -/

structure Line where
  idx : Nat
  from_bus : Nat
  to_bus : Nat
  voltage_kv : ℚ
  name : String
  power_type : String
  length_km : ℚ
  in_service : Bool
  deriving Repr, DecidableEq, Inhabited

structure GridNetwork where
  nodes : List Nat
  gedges : List (Nat × Nat)
  bus_geo : List (Nat × (ℚ × ℚ))
  bus_voltage : List (Nat × ℚ)
  line_list : List Line
  ext_grid_bus : Int := -1
  deriving Repr, DecidableEq, Inhabited

/-- `GridNetwork.num_buses` (`grid_builder.py`): `G.number_of_nodes()`. -/
def GridNetwork.num_buses (g : GridNetwork) : Nat := g.nodes.length

/-- `GridNetwork.num_lines` (`grid_builder.py`): `G.number_of_edges()`. -/
def GridNetwork.num_lines (g : GridNetwork) : Nat := g.gedges.length

/-- Every line's endpoints are nodes of `G`.  This holds for every grid
the builder produces (see `build_grid_wf`) and is implicit in the data
structure's intended use. -/
def GridWF (g : GridNetwork) : Prop :=
  ∀ l ∈ g.line_list, l.from_bus ∈ g.nodes ∧ l.to_bus ∈ g.nodes

instance (g : GridNetwork) : Decidable (GridWF g) := by
  unfold GridWF; infer_instance

/-- Edge list of `GridNetwork.get_active_graph` (`grid_builder.py` lines
52-59): one edge per in-service line. -/
def activeEdges (g : GridNetwork) : List (Nat × Nat) :=
  (g.line_list.filter fun l => l.in_service).map fun l => (l.from_bus, l.to_bus)

/-- Node list of `get_active_graph`: `add_nodes_from(G.nodes())` plus the
endpoints `nx.Graph.add_edge` inserts implicitly. -/
def activeNodes (g : GridNetwork) : List Nat :=
  g.nodes ++ nodesOf (activeEdges g)

/-! ### Energization engine (`src/core/power_flow.py`) -/

structure FaultInfo where
  line_idx : Nat
  from_bus : Nat
  to_bus : Nat
  line_name : String
  voltage_kv : ℚ
  deriving Repr, DecidableEq

/-- Embeds `trigger_fault` (`power_flow.py` lines 23-49).  The mutation of
`grid` is modelled by returning the updated grid next to the fault-info
dict (`{}` becomes `none`). -/
def trigger_fault (g : GridNetwork) (line_idx : Int) : GridNetwork × Option FaultInfo :=
  if line_idx < 0 ∨ (g.line_list.length : Int) ≤ line_idx then
    (g, none)
  else
    let i := line_idx.toNat
    let line := g.line_list.getD i default
    ({ g with line_list := g.line_list.set i { line with in_service := false } },
     some { line_idx := i, from_bus := line.from_bus, to_bus := line.to_bus,
            line_name := line.name, voltage_kv := line.voltage_kv })

/-- Embeds `trigger_random_fault` (`power_flow.py` lines 52-63).
`np.random.choice` is modelled by an explicit selection oracle `pick`;
the real generator always returns a member of the nonempty list it is
given. -/
def trigger_random_fault (pick : List Nat → Nat) (g : GridNetwork) :
    GridNetwork × Option FaultInfo :=
  let inService := (g.line_list.enum.filter fun p => p.2.in_service).map fun p => p.1
  if inService = [] then (g, none)
  else trigger_fault g (Int.ofNat (pick inService))

/-- Embeds `get_energized_status` (`power_flow.py` lines 143-170).  The
returned dict over `grid.G.nodes()` is an association list;
`nx.descendants(active, s) | {s}` is `reachSet`. -/
def get_energized_status (g : GridNetwork) : List (Nat × Nat) :=
  if g.ext_grid_bus < 0 ∨ g.ext_grid_bus.toNat ∉ activeNodes g then
    g.nodes.map fun b => (b, 0)
  else
    let reachable := reachSet (activeEdges g) g.ext_grid_bus.toNat
    g.nodes.map fun b => (b, if b ∈ reachable then 1 else 0)

/-- Embeds `GridNetwork.set_line_in_service` (`grid_builder.py` lines
47-50). -/
def set_line_in_service (g : GridNetwork) (line_idx : Int) (b : Bool) : GridNetwork :=
  if 0 ≤ line_idx ∧ line_idx < (g.line_list.length : Int) then
    let i := line_idx.toNat
    { g with line_list := g.line_list.set i { g.line_list.getD i default with in_service := b } }
  else g

/-! ### Helper lemmas for indexed list access -/

theorem getD_set_self {α : Type} (l : List α) (i : Nat) (a d : α) (h : i < l.length) :
    (l.set i a).getD i d = a := by
  induction l generalizing i with
  | nil => simp at h
  | cons x xs ih =>
    cases i with
    | zero => rfl
    | succ n =>
      simp only [List.set_cons_succ, List.getD_cons_succ]
      exact ih n (by simpa using h)

theorem getD_set_ne {α : Type} (l : List α) (i j : Nat) (a d : α) (h : j ≠ i) :
    (l.set i a).getD j d = l.getD j d := by
  induction l generalizing i j with
  | nil => simp [List.getD]
  | cons x xs ih =>
    cases i with
    | zero =>
      cases j with
      | zero => exact absurd rfl h
      | succ m => rfl
    | succ n =>
      cases j with
      | zero => rfl
      | succ m =>
        simp only [List.set_cons_succ, List.getD_cons_succ]
        exact ih n m (fun hc => h (by omega))

/-- An example grid: a 3-node path with two in-service lines. -/
def exG6 : GridNetwork :=
  { nodes := [0, 1, 2], gedges := [(0, 1), (1, 2)], bus_geo := [], bus_voltage := [],
    line_list :=
      [{ idx := 0, from_bus := 0, to_bus := 1, voltage_kv := 11, name := "a",
         power_type := "line", length_km := 1, in_service := true },
       { idx := 1, from_bus := 1, to_bus := 2, voltage_kv := 11, name := "b",
         power_type := "line", length_km := 1, in_service := true }],
    ext_grid_bus := 0 }

/-- C6: `trigger_fault` on an out-of-range index reports the error
(empty fault info, modelled `none`) and leaves the whole grid unchanged;
on an in-range index it sets exactly that line's `in_service` to false
and returns the snapshot of the line's index, endpoints, name and
voltage.  `num_edges` is the number of stored edge records
(`len(grid.line_list)`), the range the code checks. -/
theorem C6_trigger_fault_bounds (g : GridNetwork) (k : Int) :
    ((k < 0 ∨ (g.line_list.length : Int) ≤ k) → trigger_fault g k = (g, none)) ∧
    (0 ≤ k → k < (g.line_list.length : Int) →
      (trigger_fault g k).2 =
        some { line_idx := k.toNat,
               from_bus := (g.line_list.getD k.toNat default).from_bus,
               to_bus := (g.line_list.getD k.toNat default).to_bus,
               line_name := (g.line_list.getD k.toNat default).name,
               voltage_kv := (g.line_list.getD k.toNat default).voltage_kv } ∧
      (trigger_fault g k).1.nodes = g.nodes ∧
      (trigger_fault g k).1.gedges = g.gedges ∧
      (trigger_fault g k).1.bus_geo = g.bus_geo ∧
      (trigger_fault g k).1.bus_voltage = g.bus_voltage ∧
      (trigger_fault g k).1.ext_grid_bus = g.ext_grid_bus ∧
      (trigger_fault g k).1.line_list.length = g.line_list.length ∧
      (∀ j, j ≠ k.toNat →
        (trigger_fault g k).1.line_list.getD j default = g.line_list.getD j default) ∧
      (trigger_fault g k).1.line_list.getD k.toNat default =
        { g.line_list.getD k.toNat default with in_service := false }) := by
  constructor
  · intro h
    simp [trigger_fault, h]
  · intro h0 h1
    have hcond : ¬ (k < 0 ∨ (g.line_list.length : Int) ≤ k) := by omega
    have hk : k.toNat < g.line_list.length := by omega
    refine ⟨by simp [trigger_fault, hcond], by simp [trigger_fault, hcond],
      by simp [trigger_fault, hcond], by simp [trigger_fault, hcond],
      by simp [trigger_fault, hcond], by simp [trigger_fault, hcond],
      by simp [trigger_fault, hcond], ?_, ?_⟩
    · intro j hj
      simp only [trigger_fault, if_neg hcond]
      exact getD_set_ne _ _ _ _ _ hj
    · simp only [trigger_fault, if_neg hcond]
      exact getD_set_self _ _ _ _ hk

theorem C6_trigger_fault_bounds_witness :
    trigger_fault exG6 5 = (exG6, none) ∧
    (trigger_fault exG6 0).2 = some { line_idx := 0, from_bus := 0, to_bus := 1,
                                      line_name := "a", voltage_kv := 11 } := by
  refine ⟨(C6_trigger_fault_bounds exG6 5).1 (by decide), ?_⟩
  have h := ((C6_trigger_fault_bounds exG6 0).2 (by decide) (by decide)).1
  rw [h]
  rfl

/-- C10: `set_line_in_service` is total: any index outside
`[0, len(line_list))` is a silent no-op leaving the grid unchanged; an
in-range index updates exactly that record's `in_service` field (the
record-update expression keeps every other field) and nothing else. -/
theorem C10_set_line_in_service_total (g : GridNetwork) (k : Int) (b : Bool) :
    ((k < 0 ∨ (g.line_list.length : Int) ≤ k) → set_line_in_service g k b = g) ∧
    (0 ≤ k → k < (g.line_list.length : Int) →
      (set_line_in_service g k b).nodes = g.nodes ∧
      (set_line_in_service g k b).gedges = g.gedges ∧
      (set_line_in_service g k b).bus_geo = g.bus_geo ∧
      (set_line_in_service g k b).bus_voltage = g.bus_voltage ∧
      (set_line_in_service g k b).ext_grid_bus = g.ext_grid_bus ∧
      (set_line_in_service g k b).line_list.length = g.line_list.length ∧
      (∀ j, j ≠ k.toNat →
        (set_line_in_service g k b).line_list.getD j default = g.line_list.getD j default) ∧
      (set_line_in_service g k b).line_list.getD k.toNat default =
        { g.line_list.getD k.toNat default with in_service := b }) := by
  constructor
  · intro h
    have hcond : ¬ (0 ≤ k ∧ k < (g.line_list.length : Int)) := by omega
    simp [set_line_in_service, hcond]
  · intro h0 h1
    have hcond : 0 ≤ k ∧ k < (g.line_list.length : Int) := ⟨h0, h1⟩
    have hk : k.toNat < g.line_list.length := by omega
    refine ⟨by simp [set_line_in_service, hcond], by simp [set_line_in_service, hcond],
      by simp [set_line_in_service, hcond], by simp [set_line_in_service, hcond],
      by simp [set_line_in_service, hcond], by simp [set_line_in_service, hcond],
      ?_, ?_⟩
    · intro j hj
      simp only [set_line_in_service, if_pos hcond]
      exact getD_set_ne _ _ _ _ _ hj
    · simp only [set_line_in_service, if_pos hcond]
      exact getD_set_self _ _ _ _ hk

theorem C10_set_line_in_service_total_witness :
    set_line_in_service exG6 7 false = exG6 ∧
    (set_line_in_service exG6 1 false).line_list.getD 1 default =
      { exG6.line_list.getD 1 default with in_service := false } := by
  exact ⟨(C10_set_line_in_service_total exG6 7 false).1 (by decide),
    ((C10_set_line_in_service_total exG6 1 false).2 (by decide) (by decide)).2.2.2.2.2.2.2⟩

/-! ### Sensor fault localization (`src/core/sensors.py`) -/

/-- Inner loop of `identify_faulty_block`:
`for i, sensor_bus in enumerate(sensors)`. -/
def identifyGo (readings : List (Nat × Nat)) : Nat → List Nat → Int
  | _, [] => -1
  | i, s :: rest =>
    if (readings.lookup s).getD 1 = 0 then (i : Int)
    else identifyGo readings (i + 1) rest

set_option linter.unusedVariables false in
/-- Embeds `identify_faulty_block` (`sensors.py` lines 71-83):
`sensor_readings.get(sensor_bus, 1) == 0` is the "dead" test, `-1` the
distinguished "no fault detected" result.  The `blocks` argument is
accepted but never read, exactly as in the source. -/
def identify_faulty_block (sensor_readings : List (Nat × Nat)) (sensors : List Nat)
    (blocks : List (List Nat)) : Int :=
  identifyGo sensor_readings 0 sensors

/-- A sensor's reading is "false" (dead): value 0; absent keys default to
live, as `dict.get(s, 1)` does. -/
def readingDead (readings : List (Nat × Nat)) (s : Nat) : Prop :=
  (readings.lookup s).getD 1 = 0

instance (r : List (Nat × Nat)) (s : Nat) : Decidable (readingDead r s) := by
  unfold readingDead; infer_instance

theorem identifyGo_cons_dead {r : List (Nat × Nat)} {k s : Nat} {rest : List Nat}
    (hs : readingDead r s) : identifyGo r k (s :: rest) = (k : Int) := by
  have hs2 : (List.lookup s r).getD 1 = 0 := hs
  simp only [identifyGo]
  rw [if_pos hs2]

theorem identifyGo_cons_alive {r : List (Nat × Nat)} {k s : Nat} {rest : List Nat}
    (hs : ¬ readingDead r s) : identifyGo r k (s :: rest) = identifyGo r (k + 1) rest := by
  have hs2 : ¬ (List.lookup s r).getD 1 = 0 := hs
  simp only [identifyGo]
  rw [if_neg hs2]

theorem identifyGo_ge {r : List (Nat × Nat)} :
    ∀ {ss : List Nat} {k m : Nat}, identifyGo r k ss = (m : Int) → k ≤ m := by
  intro ss
  induction ss with
  | nil =>
    intro k m h
    simp only [identifyGo] at h
    omega
  | cons s rest ih =>
    intro k m h
    by_cases hs : readingDead r s
    · rw [identifyGo_cons_dead hs] at h
      omega
    · rw [identifyGo_cons_alive hs] at h
      have := ih h
      omega

theorem identifyGo_eq_neg_one_iff {r : List (Nat × Nat)} :
    ∀ {ss : List Nat} {k : Nat},
      identifyGo r k ss = -1 ↔ ∀ s ∈ ss, ¬ readingDead r s := by
  intro ss
  induction ss with
  | nil => intro k; simp [identifyGo]
  | cons s rest ih =>
    intro k
    by_cases hs : readingDead r s
    · rw [identifyGo_cons_dead hs]
      constructor
      · intro h; exact absurd h (by omega)
      · intro h; exact absurd hs (h s (List.mem_cons_self _ _))
    · rw [identifyGo_cons_alive hs, ih]
      constructor
      · intro h t ht
        rcases List.mem_cons.mp ht with rfl | ht
        · exact hs
        · exact h t ht
      · intro h t ht
        exact h t (List.mem_cons_of_mem _ ht)

theorem identifyGo_eq_ofNat_iff {r : List (Nat × Nat)} :
    ∀ {ss : List Nat} {k i : Nat},
      identifyGo r k ss = ((k + i : Nat) : Int) ↔
        ∃ h : i < ss.length, readingDead r ss[i] ∧
          ∀ j (hj : j < ss.length), j < i → ¬ readingDead r ss[j] := by
  intro ss
  induction ss with
  | nil =>
    intro k i
    constructor
    · intro h
      simp only [identifyGo] at h
      omega
    · rintro ⟨h, _⟩
      simp at h
  | cons s rest ih =>
    intro k i
    by_cases hs : readingDead r s
    · rw [identifyGo_cons_dead hs]
      constructor
      · intro h
        have hi0 : i = 0 := by omega
        subst hi0
        exact ⟨by simp, by simpa using hs, fun j hj hj0 => absurd hj0 (by omega)⟩
      · rintro ⟨h, hdead, hprev⟩
        rcases Nat.eq_zero_or_pos i with rfl | hpos
        · simp
        · exact absurd (by simpa using hs) (hprev 0 (by simp) hpos)
    · rw [identifyGo_cons_alive hs]
      cases i with
      | zero =>
        constructor
        · intro h
          have := identifyGo_ge h
          omega
        · rintro ⟨h, hdead, _⟩
          exact absurd (by simpa using hdead) hs
      | succ n =>
        have harith : k + (n + 1) = (k + 1) + n := by omega
        rw [harith, ih]
        constructor
        · rintro ⟨h, hdead, hprev⟩
          refine ⟨by simpa using Nat.succ_lt_succ h, by simpa using hdead, ?_⟩
          intro j hj hji
          cases j with
          | zero => simpa using hs
          | succ m =>
            have := hprev m (by simpa using Nat.lt_of_succ_lt_succ hj) (by omega)
            simpa using this
        · rintro ⟨h, hdead, hprev⟩
          have hlt : n < rest.length := by simpa using Nat.lt_of_succ_lt_succ h
          refine ⟨hlt, by simpa using hdead, ?_⟩
          intro j hj hji
          have := hprev (j + 1) (by simpa using Nat.succ_lt_succ hj) (by omega)
          simpa using this

/-- C4: `identify_faulty_block` returns the index of the first sensor (in
list order) whose reading is false, and `-1` (the "none" result) exactly
when every sensor reads true; absent sensors default to reading true. -/
theorem C4_identify_faulty_block_first (r : List (Nat × Nat)) (ss : List Nat)
    (bs : List (List Nat)) :
    (identify_faulty_block r ss bs = -1 ↔ ∀ s ∈ ss, ¬ readingDead r s) ∧
    ∀ i : Nat, identify_faulty_block r ss bs = (i : Int) ↔
      ∃ h : i < ss.length, readingDead r ss[i] ∧
        ∀ j (hj : j < ss.length), j < i → ¬ readingDead r ss[j] := by
  refine ⟨identifyGo_eq_neg_one_iff, fun i => ?_⟩
  have h := @identifyGo_eq_ofNat_iff r ss 0 i
  simpa using h

theorem C4_identify_faulty_block_first_witness :
    identify_faulty_block [(2, 1), (5, 0), (8, 0)] [2, 5, 8]
      [[0, 1, 2], [3, 4, 5], [6, 7, 8]] = (1 : Int) ∧
    identify_faulty_block [(2, 1), (5, 1), (8, 1)] [2, 5, 8]
      [[0, 1, 2], [3, 4, 5], [6, 7, 8]] = -1 := by
  constructor
  · exact ((C4_identify_faulty_block_first [(2, 1), (5, 0), (8, 0)] [2, 5, 8]
      [[0, 1, 2], [3, 4, 5], [6, 7, 8]]).2 1).mpr ⟨by decide, by decide, by decide⟩
  · exact (C4_identify_faulty_block_first [(2, 1), (5, 1), (8, 1)] [2, 5, 8]
      [[0, 1, 2], [3, 4, 5], [6, 7, 8]]).1.mpr (by decide)

/-! ### C1: energization = reachability through in-service lines -/

theorem lookup_map_pair {f : Nat → Nat} {l : List Nat} {x : Nat} (hx : x ∈ l) :
    (l.map fun b => (b, f b)).lookup x = some (f x) := by
  induction l with
  | nil => cases hx
  | cons a rest ih =>
    by_cases hxa : x = a
    · subst hxa
      simp [List.lookup]
    · rcases List.mem_cons.mp hx with rfl | h
      · exact absurd rfl hxa
      · have hbeq : (x == a) = false := beq_eq_false_iff_ne.mpr hxa
        simp [List.lookup, hbeq, ih h]

theorem mem_activeNodes_iff {g : GridNetwork} (hwf : GridWF g) {x : Nat} :
    x ∈ activeNodes g ↔ x ∈ g.nodes := by
  constructor
  · intro hx
    rcases List.mem_append.mp hx with h | h
    · exact h
    · rcases mem_nodesOf_iff.mp h with ⟨e, he, hxe⟩
      rcases List.mem_map.mp he with ⟨l, hl, rfl⟩
      have hmem := hwf l (List.mem_filter.mp hl).1
      rcases hxe with rfl | rfl
      · exact hmem.1
      · exact hmem.2
  · intro hx
    exact List.mem_append.mpr (Or.inl hx)

/-- The source is a member of the grid's node set. -/
def sourceValid (g : GridNetwork) : Prop :=
  0 ≤ g.ext_grid_bus ∧ g.ext_grid_bus.toNat ∈ g.nodes

instance (g : GridNetwork) : Decidable (sourceValid g) := by
  unfold sourceValid; infer_instance

/-- C1: `get_energized_status` maps to `1` exactly the nodes reachable
from the source through in-service lines (undirected, source included)
and to `0` every other node; when the source is not a member of the node
set, every node is mapped to `0`.  `GridWF` (line endpoints are nodes)
holds for every grid the builder produces. -/
theorem C1_get_energized_status_reachability (g : GridNetwork) (hwf : GridWF g) :
    (∀ b ∈ g.nodes,
      ((get_energized_status g).lookup b = some 1 ↔
        sourceValid g ∧ Reach (activeEdges g) g.ext_grid_bus.toNat b) ∧
      ((get_energized_status g).lookup b = some 0 ↔
        ¬ (sourceValid g ∧ Reach (activeEdges g) g.ext_grid_bus.toNat b))) ∧
    (¬ sourceValid g → ∀ b ∈ g.nodes, (get_energized_status g).lookup b = some 0) := by
  have hcond : (g.ext_grid_bus < 0 ∨ g.ext_grid_bus.toNat ∉ activeNodes g) ↔
      ¬ sourceValid g := by
    unfold sourceValid
    constructor
    · rintro (h | h)
      · rintro ⟨h0, _⟩; omega
      · rintro ⟨h0, hmem⟩; exact h ((mem_activeNodes_iff hwf).mpr hmem)
    · intro h
      by_cases h0 : g.ext_grid_bus < 0
      · exact Or.inl h0
      · right
        intro hmem
        exact h ⟨by omega, (mem_activeNodes_iff hwf).mp hmem⟩
  by_cases hsv : sourceValid g
  · have hc : ¬ (g.ext_grid_bus < 0 ∨ g.ext_grid_bus.toNat ∉ activeNodes g) :=
      fun hx => (hcond.mp hx) hsv
    have hunf : get_energized_status g = g.nodes.map fun b =>
        (b, if b ∈ reachSet (activeEdges g) g.ext_grid_bus.toNat then 1 else 0) := by
      simp only [get_energized_status, if_neg hc]
    refine ⟨fun b hb => ?_, fun hns => absurd hsv hns⟩
    rw [hunf, lookup_map_pair hb]
    by_cases hr : b ∈ reachSet (activeEdges g) g.ext_grid_bus.toNat
    · rw [if_pos hr]
      constructor
      · exact ⟨fun _ => ⟨hsv, mem_reachSet_iff.mp hr⟩, fun _ => rfl⟩
      · constructor
        · intro h; cases h
        · intro h; exact absurd ⟨hsv, mem_reachSet_iff.mp hr⟩ h
    · rw [if_neg hr]
      constructor
      · constructor
        · intro h; cases h
        · rintro ⟨_, hreach⟩; exact absurd (mem_reachSet_iff.mpr hreach) hr
      · constructor
        · intro _ hcon
          exact hr (mem_reachSet_iff.mpr hcon.2)
        · intro _
          rfl
  · have hc : g.ext_grid_bus < 0 ∨ g.ext_grid_bus.toNat ∉ activeNodes g := hcond.mpr hsv
    have hunf : get_energized_status g = g.nodes.map fun b => (b, 0) := by
      simp only [get_energized_status, if_pos hc]
    refine ⟨fun b hb => ?_, fun _ b hb => by rw [hunf, lookup_map_pair hb]⟩
    rw [hunf, lookup_map_pair hb]
    constructor
    · constructor
      · intro h
        cases h
      · intro h
        exact absurd h.1 hsv
    · constructor
      · intro _ h
        exact hsv h.1
      · intro _
        rfl

/-- Example grid for C1: the spec's 5-node path `0-1-2-3-4` with source 0
and the line `(2,3)` out of service. -/
def exG1 : GridNetwork :=
  { nodes := [0, 1, 2, 3, 4], gedges := [(0, 1), (1, 2), (2, 3), (3, 4)],
    bus_geo := [], bus_voltage := [],
    line_list :=
      [{ idx := 0, from_bus := 0, to_bus := 1, voltage_kv := 11, name := "l0",
         power_type := "line", length_km := 1, in_service := true },
       { idx := 1, from_bus := 1, to_bus := 2, voltage_kv := 11, name := "l1",
         power_type := "line", length_km := 1, in_service := true },
       { idx := 2, from_bus := 2, to_bus := 3, voltage_kv := 11, name := "l2",
         power_type := "line", length_km := 1, in_service := false },
       { idx := 3, from_bus := 3, to_bus := 4, voltage_kv := 11, name := "l3",
         power_type := "line", length_km := 1, in_service := true }],
    ext_grid_bus := 0 }

theorem C1_get_energized_status_reachability_witness :
    ((get_energized_status exG1).lookup 4 = some 0 ↔
      ¬ (sourceValid exG1 ∧ Reach (activeEdges exG1) exG1.ext_grid_bus.toNat 4)) ∧
    (get_energized_status exG1).lookup 2 = some 1 ∧
    (get_energized_status exG1).lookup 3 = some 0 := by
  have h := (C1_get_energized_status_reachability exG1 (by decide)).1 4 (by decide)
  exact ⟨h.2, by decide, by decide⟩

/-! ### C8: voltage-string parsing (`parse_voltage_kv`, `grid_builder.py`
lines 62-76)

Python strings are modelled as `List Char`.  `str.isdigit` is modelled on
ASCII digits and `float()` on exact decimal rationals; the inputs the
spec discusses are ASCII decimal strings, where the two coincide with
Python's behaviour. -/

/-- Python `str.split(';')` (empty parts kept, `''.split(';') == ['']`). -/
def pySplitSemi (s : List Char) : List (List Char) :=
  s.splitOn ';'

/-- Python `str.strip()`. -/
def pyStrip (s : List Char) : List Char :=
  ((s.dropWhile Char.isWhitespace).reverse.dropWhile Char.isWhitespace).reverse

/-- Python `str.replace('.', '')`. -/
def removeDots (s : List Char) : List Char :=
  s.filter fun c => c ≠ '.'

/-- Python `str.isdigit` (false on the empty string). -/
def pyIsDigit (s : List Char) : Bool :=
  !s.isEmpty && s.all Char.isDigit

/-- Value of a decimal digit string (`digitsVal [] = 0`, matching
`float(".5")` and `float("123.")`). -/
def digitsVal (s : List Char) : Nat :=
  s.foldl (fun acc c => acc * 10 + (c.toNat - Char.toNat '0')) 0

/-- Python `float()` on a stripped token made of digits and dots: succeeds
iff there is at most one dot and at least one digit; a token such as
`"1.2.3"` raises `ValueError`, modelled by `none`. -/
def pyFloat? (s : List Char) : Option ℚ :=
  if (s.all fun c => c.isDigit || c == '.') = true ∧ s.count '.' ≤ 1 ∧
      s.any Char.isDigit = true then
    match s.splitOn '.' with
    | [ip] => some (digitsVal ip)
    | [ip, fp] => some ((digitsVal ip : ℚ) + (digitsVal fp : ℚ) / (10 : ℚ) ^ fp.length)
    | _ => none
  else none

/-- Python `max` on a nonempty list (`0` on `[]`, a case the callers
guard). -/
def maxQ : List ℚ → ℚ
  | [] => 0
  | a :: l => l.foldl max a

/-- Tail of `parse_voltage_kv` after the token values are computed: the
`try` body from `values = [...]` on.  A `none` among the mapped values is
the `ValueError` that `float()` raises on a token that passed the
digits-and-dots filter but has several dots; it aborts the whole list
comprehension, so the `except` arm yields 11.0. -/
def pvkAux (vals : List (Option ℚ)) : ℚ :=
  if vals.any Option.isNone then 11
  else
    let values := vals.reduceOption
    if values.isEmpty then 11
    else
      let max_v := maxQ values
      if max_v > 1000 then max_v / 1000
      else if max_v > 0 then max_v else 11

/-- Embeds `parse_voltage_kv` (`grid_builder.py` lines 62-76). -/
def parse_voltage_kv (voltage_str : List Char) : ℚ :=
  if voltage_str.isEmpty then 11
  else pvkAux (((pySplitSemi voltage_str).filter fun p =>
    pyIsDigit (removeDots (pyStrip p))).map fun p => pyFloat? (pyStrip p))

/-- The numeric tokens of a voltage string, in the claim's sense: the
`;`-separated tokens that parse as numbers; non-numeric tokens are
ignored. -/
def numericTokens (voltage_str : List Char) : List ℚ :=
  (pySplitSemi voltage_str).filterMap fun p =>
    if pyIsDigit (removeDots (pyStrip p)) then pyFloat? (pyStrip p) else none

/-- The claim's parsing rule on the numeric-token values. -/
def pvsAux (nums : List ℚ) : ℚ :=
  if nums.isEmpty then 11
  else if maxQ nums > 1000 then maxQ nums / 1000
  else maxQ nums

/-- The claim's reading of the parsing rule, from the spec's words: take
the maximum over the numeric `;`-separated tokens, ignore non-numeric
tokens, divide by 1000 when the maximum exceeds 1000, default 11.0 when
no valid numeric token exists. -/
def parseVoltageSpec (voltage_str : List Char) : ℚ :=
  pvsAux (numericTokens voltage_str)

theorem filterMap_ite_eq_filter (P : List Char → Bool) (F : List Char → Option ℚ)
    (l : List (List Char)) :
    (l.filterMap fun p => if P p then F p else none) = (l.filter P).filterMap F := by
  induction l with
  | nil => rfl
  | cons a l ih =>
    by_cases h : P a = true
    · cases hF : F a <;> simp [List.filterMap_cons, List.filter_cons, h, hF, ih]
    · simp [List.filterMap_cons, List.filter_cons, h, ih]

theorem numericTokens_eq (s : List Char) :
    numericTokens s = (((pySplitSemi s).filter fun p =>
      pyIsDigit (removeDots (pyStrip p))).map fun p => pyFloat? (pyStrip p)).reduceOption := by
  unfold numericTokens
  rw [filterMap_ite_eq_filter, List.reduceOption, List.filterMap_map]
  rfl

/-- On inputs where every filtered token is a well-formed number and the
numeric maximum (if any token exists) is positive, the code agrees with
the claim's rule. -/
theorem parse_voltage_eq_spec_of_clean : ∀ s : List Char,
    (∀ p ∈ pySplitSemi s, pyIsDigit (removeDots (pyStrip p)) = true →
      (pyFloat? (pyStrip p)).isSome = true) →
    (numericTokens s = [] ∨ 0 < maxQ (numericTokens s)) →
    parse_voltage_kv s = parseVoltageSpec s := by
  intro s h1 h2
  by_cases hs : s.isEmpty = true
  · have hnil : s = [] := List.isEmpty_iff.mp hs
    subst hnil
    decide
  · unfold parse_voltage_kv parseVoltageSpec
    rw [if_neg hs]
    have hany : ((((pySplitSemi s).filter fun p =>
        pyIsDigit (removeDots (pyStrip p))).map fun p => pyFloat? (pyStrip p)).any
          Option.isNone) = false := by
      rw [List.any_eq_false]
      intro x hx
      rcases List.mem_map.mp hx with ⟨p, hp, rfl⟩
      have hmem := List.mem_filter.mp hp
      have hsome := h1 p hmem.1 hmem.2
      rcases Option.isSome_iff_exists.mp hsome with ⟨v, hv⟩
      simp [hv]
    unfold pvkAux
    rw [if_neg (by simp [hany])]
    rw [← numericTokens_eq]
    unfold pvsAux
    rcases h2 with hnil | hpos
    · rw [hnil]
      simp
    · have hne : ¬ (numericTokens s).isEmpty = true := by
        intro hc
        rw [List.isEmpty_iff.mp hc] at hpos
        simp [maxQ] at hpos
      rw [if_neg hne]
      by_cases hgt : maxQ (numericTokens s) > 1000
      · rw [if_pos hgt, if_neg hne, if_pos hgt]
      · rw [if_neg hgt, if_pos hpos, if_neg hne, if_neg hgt]

/-- C8 counterexample: for `"0"` the numeric maximum is 0 (valid token,
maximum not above 1000), so the claim's rule yields 0, but the code
returns 11.0; and for `"500000;1.2.3"` the claim's rule ignores the
non-numeric token `"1.2.3"` and yields 500.0, but the code returns
11.0 because `float("1.2.3")` raises inside the comprehension. -/
theorem C8_parse_voltage_counterexample :
    parse_voltage_kv "0".toList = 11 ∧ parseVoltageSpec "0".toList = 0 ∧ (11 : ℚ) ≠ 0 ∧
    parse_voltage_kv "500000;1.2.3".toList = 11 ∧
    parseVoltageSpec "500000;1.2.3".toList = 500 ∧ (11 : ℚ) ≠ 500 := by
  refine ⟨by decide, by decide, by norm_num, by decide, ?_, by norm_num⟩
  have h : numericTokens "500000;1.2.3".toList = [500000] := by decide
  unfold parseVoltageSpec
  rw [h]
  norm_num [pvsAux, maxQ]

/-- C8, amended: the four concrete evaluations hold and parsing is total
by construction; the claim's general rule (maximum over the numeric
tokens, non-numeric tokens ignored, /1000 above 1000, default 11.0 when
no numeric token exists) holds whenever every token passing the
digits-and-dots filter parses as a number and the numeric maximum, if
any token exists, is positive.  As the counterexample forces: a numeric
maximum of 0 yields the default 11.0 rather than 0, and a filtered token
with several dots (digits and dots but not a number) makes the whole
parse return 11.0 regardless of the other tokens. -/
theorem C8_parse_voltage_amended :
    parse_voltage_kv [] = 11 ∧
    parse_voltage_kv "400000".toList = 400 ∧
    parse_voltage_kv "11000;33000".toList = 33 ∧
    parse_voltage_kv "abc".toList = 11 ∧
    ∀ s : List Char,
      (∀ p ∈ pySplitSemi s, pyIsDigit (removeDots (pyStrip p)) = true →
        (pyFloat? (pyStrip p)).isSome = true) →
      (numericTokens s = [] ∨ 0 < maxQ (numericTokens s)) →
      parse_voltage_kv s = parseVoltageSpec s := by
  refine ⟨by decide, ?_, ?_, by decide, parse_voltage_eq_spec_of_clean⟩
  · rw [parse_voltage_eq_spec_of_clean _ (by decide) (by decide)]
    have h : numericTokens "400000".toList = [400000] := by decide
    unfold parseVoltageSpec
    rw [h]
    norm_num [pvsAux, maxQ]
  · rw [parse_voltage_eq_spec_of_clean _ (by decide) (by decide)]
    have h : numericTokens "11000;33000".toList = [11000, 33000] := by decide
    unfold parseVoltageSpec
    rw [h]
    norm_num [pvsAux, maxQ, max_def]

theorem C8_parse_voltage_amended_witness :
    parse_voltage_kv "700".toList = parseVoltageSpec "700".toList := by
  exact C8_parse_voltage_amended.2.2.2.2 "700".toList (by decide) (by decide)

/-! ### C3: √n sensor placement (`place_sensors_sqrt_n`, `sensors.py`
lines 18-57)

`nx.dfs_preorder_nodes` is recursive depth-first preorder visiting each
node's neighbours in adjacency-insertion order; it is embedded as a
worklist recursion `dfsAux` with a fuel argument large enough (proved)
never to run out. -/

/-- Neighbour list of `u` in adjacency-insertion order (the order in
which `nx.Graph.add_edge` inserts into `G[u]`). -/
def nbrs (E : List (Nat × Nat)) (u : Nat) : List Nat :=
  E.foldr (fun e acc =>
    if e.1 = u then e.2 :: acc else if e.2 = u then e.1 :: acc else acc) []

theorem mem_nbrs {E : List (Nat × Nat)} {u b : Nat} :
    b ∈ nbrs E u ↔ adjacent E u b = true := by
  rw [adjacent_iff]
  induction E with
  | nil => simp [nbrs]
  | cons e es ih =>
    simp only [nbrs, List.foldr_cons] at *
    by_cases h1 : e.1 = u
    · simp only [if_pos h1]
      constructor
      · intro h
        rcases List.mem_cons.mp h with rfl | h
        · exact ⟨e, List.mem_cons_self _ _, Or.inl ⟨h1, rfl⟩⟩
        · rcases ih.mp h with ⟨f, hf, hor⟩
          exact ⟨f, List.mem_cons_of_mem _ hf, hor⟩
      · rintro ⟨f, hf, hor⟩
        rcases List.mem_cons.mp hf with rfl | hf
        · rcases hor with ⟨_, h2⟩ | ⟨hb, h2⟩
          · exact h2 ▸ List.mem_cons_self _ _
          · rw [h1] at hb
            exact hb ▸ (h2 ▸ List.mem_cons_self _ _)
        · exact List.mem_cons_of_mem _ (ih.mpr ⟨f, hf, hor⟩)
    · by_cases h2 : e.2 = u
      · simp only [if_neg h1, if_pos h2]
        constructor
        · intro h
          rcases List.mem_cons.mp h with rfl | h
          · exact ⟨e, List.mem_cons_self _ _, Or.inr ⟨rfl, h2⟩⟩
          · rcases ih.mp h with ⟨f, hf, hor⟩
            exact ⟨f, List.mem_cons_of_mem _ hf, hor⟩
        · rintro ⟨f, hf, hor⟩
          rcases List.mem_cons.mp hf with rfl | hf
          · rcases hor with ⟨hu, hb⟩ | ⟨hb, _⟩
            · exact absurd hu h1
            · exact hb ▸ List.mem_cons_self _ _
          · exact List.mem_cons_of_mem _ (ih.mpr ⟨f, hf, hor⟩)
      · simp only [if_neg h1, if_neg h2]
        constructor
        · intro h
          rcases ih.mp h with ⟨f, hf, hor⟩
          exact ⟨f, List.mem_cons_of_mem _ hf, hor⟩
        · rintro ⟨f, hf, hor⟩
          rcases List.mem_cons.mp hf with rfl | hf
          · rcases hor with ⟨hu, _⟩ | ⟨_, hu⟩
            · exact absurd hu h1
            · exact absurd hu h2
          · exact ih.mpr ⟨f, hf, hor⟩

theorem length_nbrs_le {E : List (Nat × Nat)} {u : Nat} :
    (nbrs E u).length ≤ E.length := by
  induction E with
  | nil => simp [nbrs]
  | cons e es ih =>
    simp only [nbrs, List.foldr_cons] at *
    by_cases h1 : e.1 = u
    · simp only [if_pos h1, List.length_cons]
      omega
    · by_cases h2 : e.2 = u
      · simp only [if_neg h1, if_pos h2, List.length_cons]
        omega
      · simp only [if_neg h1, if_neg h2, List.length_cons]
        omega

theorem nbrs_subset_nodesOf {E : List (Nat × Nat)} {u b : Nat} (h : b ∈ nbrs E u) :
    b ∈ nodesOf E :=
  (adjacent_mem_nodesOf (mem_nbrs.mp h)).2

/-- Worklist depth-first preorder: processes the worklist left to right,
descending into a new node's neighbour list before the rest.  Fuel
decreases on every call; `dfs_preorder` supplies enough for it never to
run out. -/
def dfsAux (E : List (Nat × Nat)) : Nat → List Nat → List Nat → List Nat
  | 0, _, vis => vis
  | _ + 1, [], vis => vis
  | f + 1, u :: us, vis =>
    if u ∈ vis then dfsAux E f us vis
    else dfsAux E f us (dfsAux E f (nbrs E u) (vis ++ [u]))

/-- Embeds `nx.dfs_preorder_nodes(G, source)`. -/
def dfs_preorder (E : List (Nat × Nat)) (s : Nat) : List Nat :=
  dfsAux E (1 + ((nodesOf E).length + 1) * (E.length + 1)) [s] []

theorem dfsAux_extends (E : List (Nat × Nat)) :
    ∀ f ws vis, vis <+: dfsAux E f ws vis := by
  intro f
  induction f with
  | zero => intro ws vis; exact List.prefix_rfl
  | succ f ih =>
    intro ws vis
    cases ws with
    | nil => exact List.prefix_rfl
    | cons u us =>
      by_cases hu : u ∈ vis
      · simp only [dfsAux, if_pos hu]
        exact ih us vis
      · simp only [dfsAux, if_neg hu]
        have h1 : vis <+: vis ++ [u] := List.prefix_append _ _
        exact (h1.trans (ih (nbrs E u) (vis ++ [u]))).trans (ih us _)

theorem dfsAux_nodup (E : List (Nat × Nat)) :
    ∀ f ws vis, vis.Nodup → (dfsAux E f ws vis).Nodup := by
  intro f
  induction f with
  | zero => intro ws vis h; exact h
  | succ f ih =>
    intro ws vis h
    cases ws with
    | nil => exact h
    | cons u us =>
      by_cases hu : u ∈ vis
      · simp only [dfsAux, if_pos hu]
        exact ih us vis h
      · simp only [dfsAux, if_neg hu]
        refine ih us _ (ih (nbrs E u) (vis ++ [u]) ?_)
        refine List.Nodup.append h (List.nodup_singleton u) ?_
        intro x hx hx2
        rw [List.mem_singleton] at hx2
        exact hu (hx2 ▸ hx)

theorem dfsAux_elems (E : List (Nat × Nat)) :
    ∀ f ws vis x, x ∈ dfsAux E f ws vis → x ∈ vis ∨ x ∈ ws ∨ x ∈ nodesOf E := by
  intro f
  induction f with
  | zero => intro ws vis x hx; exact Or.inl hx
  | succ f ih =>
    intro ws vis x hx
    cases ws with
    | nil => exact Or.inl hx
    | cons u us =>
      by_cases hu : u ∈ vis
      · simp only [dfsAux, if_pos hu] at hx
        rcases ih us vis x hx with h | h | h
        · exact Or.inl h
        · exact Or.inr (Or.inl (List.mem_cons_of_mem _ h))
        · exact Or.inr (Or.inr h)
      · simp only [dfsAux, if_neg hu] at hx
        rcases ih us _ x hx with h | h | h
        · rcases ih (nbrs E u) (vis ++ [u]) x h with h2 | h2 | h2
          · rcases List.mem_append.mp h2 with h3 | h3
            · exact Or.inl h3
            · rw [List.mem_singleton] at h3
              exact Or.inr (Or.inl (h3 ▸ List.mem_cons_self _ _))
          · exact Or.inr (Or.inr (nbrs_subset_nodesOf h2))
          · exact Or.inr (Or.inr h2)
        · exact Or.inr (Or.inl (List.mem_cons_of_mem _ h))
        · exact Or.inr (Or.inr h)

theorem dfsAux_reach (E : List (Nat × Nat)) :
    ∀ f ws vis x, x ∈ dfsAux E f ws vis → x ∈ vis ∨ ∃ w ∈ ws, Reach E w x := by
  intro f
  induction f with
  | zero => intro ws vis x hx; exact Or.inl hx
  | succ f ih =>
    intro ws vis x hx
    cases ws with
    | nil => exact Or.inl hx
    | cons u us =>
      by_cases hu : u ∈ vis
      · simp only [dfsAux, if_pos hu] at hx
        rcases ih us vis x hx with h | ⟨w, hw, hr⟩
        · exact Or.inl h
        · exact Or.inr ⟨w, List.mem_cons_of_mem _ hw, hr⟩
      · simp only [dfsAux, if_neg hu] at hx
        rcases ih us _ x hx with h | ⟨w, hw, hr⟩
        · rcases ih (nbrs E u) (vis ++ [u]) x h with h2 | ⟨w, hw, hr⟩
          · rcases List.mem_append.mp h2 with h3 | h3
            · exact Or.inl h3
            · rw [List.mem_singleton] at h3
              exact Or.inr ⟨u, List.mem_cons_self _ _, h3 ▸ Reach.refl⟩
          · refine Or.inr ⟨u, List.mem_cons_self _ _, ?_⟩
            exact Reach.trans (Reach.step Reach.refl (mem_nbrs.mp hw)) hr
        · exact Or.inr ⟨w, List.mem_cons_of_mem _ hw, hr⟩

theorem nodup_length_le_of_subset {l U : List Nat} (hnd : l.Nodup)
    (hsub : ∀ x ∈ l, x ∈ U) : l.length ≤ U.length := by
  have h1 : l.toFinset ⊆ U.toFinset := fun x hx =>
    List.mem_toFinset.mpr (hsub x (List.mem_toFinset.mp hx))
  have h2 := Finset.card_le_card h1
  rw [List.toFinset_card_of_nodup hnd] at h2
  exact h2.trans (List.toFinset_card_le U)

theorem dfsAux_complete (E : List (Nat × Nat)) (U : List Nat)
    (hEU : ∀ x ∈ nodesOf E, x ∈ U) :
    ∀ f ws vis,
      vis.Nodup → (∀ x ∈ vis, x ∈ U) → (∀ x ∈ ws, x ∈ U) →
      ws.length + (U.length - vis.length) * (E.length + 1) ≤ f →
      (∀ w ∈ ws, w ∈ dfsAux E f ws vis) ∧
      (∀ a ∈ dfsAux E f ws vis, a ∉ vis → ∀ b ∈ nbrs E a, b ∈ dfsAux E f ws vis) := by
  intro f
  induction f with
  | zero =>
    intro ws vis hnd hvU hwU hfuel
    have hws : ws = [] := by
      cases ws with
      | nil => rfl
      | cons u us => simp at hfuel
    subst hws
    exact ⟨by simp, fun a ha hav => absurd ha hav⟩
  | succ f ih =>
    intro ws vis hnd hvU hwU hfuel
    cases ws with
    | nil => exact ⟨by simp, fun a ha hav => absurd ha hav⟩
    | cons u us =>
      by_cases hu : u ∈ vis
      · simp only [dfsAux, if_pos hu]
        have hrec := ih us vis hnd hvU
          (fun x hx => hwU x (List.mem_cons_of_mem _ hx))
          (by simp only [List.length_cons] at hfuel; omega)
        refine ⟨?_, hrec.2⟩
        intro w hw
        rcases List.mem_cons.mp hw with rfl | hw
        · exact (dfsAux_extends E f us vis).subset hu
        · exact hrec.1 w hw
      · simp only [dfsAux, if_neg hu]
        have hndu : (vis ++ [u]).Nodup := by
          refine List.Nodup.append hnd (List.nodup_singleton u) ?_
          intro x hx hx2
          rw [List.mem_singleton] at hx2
          exact hu (hx2 ▸ hx)
        have huU : u ∈ U := hwU u (List.mem_cons_self _ _)
        have hvUu : ∀ x ∈ vis ++ [u], x ∈ U := by
          intro x hx
          rcases List.mem_append.mp hx with h | h
          · exact hvU x h
          · rw [List.mem_singleton] at h
            exact h ▸ huU
        have hnU : ∀ x ∈ nbrs E u, x ∈ U := fun x hx => hEU x (nbrs_subset_nodesOf hx)
        have hvislt : vis.length + 1 ≤ U.length := by
          have := nodup_length_le_of_subset hndu hvUu
          simpa using this
        have hmul : (U.length - vis.length) * (E.length + 1) =
            (U.length - (vis.length + 1)) * (E.length + 1) + (E.length + 1) := by
          have hd : U.length - vis.length = (U.length - (vis.length + 1)) + 1 := by omega
          rw [hd, Nat.succ_mul]
        have hnblen : (nbrs E u).length ≤ E.length := length_nbrs_le
        have hfuel1 : (nbrs E u).length +
            (U.length - (vis ++ [u]).length) * (E.length + 1) ≤ f := by
          simp only [List.length_append, List.length_singleton]
          simp only [List.length_cons] at hfuel
          omega
        have hinner := ih (nbrs E u) (vis ++ [u]) hndu hvUu hnU hfuel1
        have hpre1 := dfsAux_extends E f (nbrs E u) (vis ++ [u])
        have hR1len : vis.length + 1 ≤ (dfsAux E f (nbrs E u) (vis ++ [u])).length := by
          have := hpre1.length_le
          simpa using this
        have hR1nd : (dfsAux E f (nbrs E u) (vis ++ [u])).Nodup := dfsAux_nodup E f _ _ hndu
        have hR1U : ∀ x ∈ dfsAux E f (nbrs E u) (vis ++ [u]), x ∈ U := by
          intro x hx
          rcases dfsAux_elems E f (nbrs E u) (vis ++ [u]) x hx with h | h | h
          · exact hvUu x h
          · exact hnU x h
          · exact hEU x h
        have hfuel2 : us.length +
            (U.length - (dfsAux E f (nbrs E u) (vis ++ [u])).length) * (E.length + 1) ≤ f := by
          have hle : (U.length - (dfsAux E f (nbrs E u) (vis ++ [u])).length) * (E.length + 1) ≤
              (U.length - (vis.length + 1)) * (E.length + 1) :=
            Nat.mul_le_mul_right _ (by omega)
          simp only [List.length_cons] at hfuel
          omega
        have houter := ih us (dfsAux E f (nbrs E u) (vis ++ [u])) hR1nd hR1U
          (fun x hx => hwU x (List.mem_cons_of_mem _ hx)) hfuel2
        have hpre2 := dfsAux_extends E f us (dfsAux E f (nbrs E u) (vis ++ [u]))
        refine ⟨?_, ?_⟩
        · intro w hw
          rcases List.mem_cons.mp hw with rfl | hw
          · exact hpre2.subset (hpre1.subset (by simp))
          · exact houter.1 w hw
        · intro a ha hav b hb
          by_cases haR1 : a ∈ dfsAux E f (nbrs E u) (vis ++ [u])
          · by_cases havu : a ∈ vis ++ [u]
            · have hau : a = u := by
                rcases List.mem_append.mp havu with h | h
                · exact absurd h hav
                · simpa using h
              subst hau
              exact hpre2.subset (hinner.1 b hb)
            · exact hpre2.subset (hinner.2 a haR1 havu b hb)
          · exact houter.2 a ha haR1 b hb

theorem dfs_preorder_nodup (E : List (Nat × Nat)) (s : Nat) :
    (dfs_preorder E s).Nodup :=
  dfsAux_nodup E _ [s] [] (by simp)

theorem mem_dfs_preorder {E : List (Nat × Nat)} {s x : Nat} :
    x ∈ dfs_preorder E s ↔ Reach E s x := by
  constructor
  · intro h
    rcases dfsAux_reach E _ [s] [] x h with h | ⟨w, hw, hr⟩
    · cases h
    · rw [List.mem_singleton] at hw
      exact hw ▸ hr
  · intro h
    have hcomp := dfsAux_complete E (s :: nodesOf E)
      (fun x hx => List.mem_cons_of_mem _ hx)
      (1 + ((nodesOf E).length + 1) * (E.length + 1)) [s] []
      (by simp) (by simp) (by simp) (by simp)
    induction h with
    | refl => exact hcomp.1 s (by simp)
    | step ha hadj ih =>
      exact hcomp.2 _ ih (by simp) _ (mem_nbrs.mpr hadj)

/-- Models `math.ceil(math.sqrt(n))` exactly: the least `k` with
`n ≤ k * k` (the float double-rounding of `math.sqrt` only diverges for
astronomically large `n`, far beyond any grid size).  Implemented by
linear search so that it computes inside the kernel. -/
def ceilSqrt (n : Nat) : Nat :=
  match (List.range (n + 1)).find? fun k => decide (n ≤ k * k) with
  | some k => k
  | none => n

theorem ceilSqrt_pos {n : Nat} (hn : 0 < n) : 0 < ceilSqrt n := by
  unfold ceilSqrt
  cases hf : (List.range (n + 1)).find? fun k => decide (n ≤ k * k) with
  | none => exact hn
  | some k =>
    have hp := List.find?_some hf
    simp only [decide_eq_true_eq] at hp
    rcases Nat.eq_zero_or_pos k with rfl | hk
    · simp at hp
      omega
    · exact hk

/-- `for i in range(0, n, k): blocks.append(ordering[i:i+k])` — contiguous
chunks of size `k`, final chunk possibly shorter.  Structural fuel, so
that the definition computes in the kernel. -/
def chunkGo (k : Nat) : Nat → List Nat → List (List Nat)
  | 0, _ => []
  | _ + 1, [] => []
  | f + 1, a :: l => ((a :: l).take k) :: chunkGo k f ((a :: l).drop k)

def chunkList (k : Nat) (l : List Nat) : List (List Nat) :=
  chunkGo k l.length l

theorem getLastD_of_ne_nil {α : Type} {l : List α} (h : l ≠ []) (d d' : α) :
    l.getLastD d = l.getLastD d' := by
  rw [List.getLastD_eq_getLast?, List.getLastD_eq_getLast?]
  cases hx : l.getLast? with
  | none => exact absurd (List.getLast?_eq_none_iff.mp hx) h
  | some x => rfl

theorem chunkGo_nil (k f : Nat) : chunkGo k f ([] : List Nat) = [] := by
  cases f <;> rfl

theorem chunkGo_spec (k : Nat) (hk : 0 < k) :
    ∀ f (l : List Nat), l.length ≤ f → l ≠ [] →
      (chunkGo k f l).flatten = l ∧
      (chunkGo k f l).length = (l.length + k - 1) / k ∧
      (∀ i (hi : i < (chunkGo k f l).length), i + 1 < (chunkGo k f l).length →
        ((chunkGo k f l).get ⟨i, hi⟩).length = k) ∧
      1 ≤ ((chunkGo k f l).getLastD []).length ∧
      ((chunkGo k f l).getLastD []).length ≤ k := by
  intro f
  induction f with
  | zero =>
    intro l hl hne
    cases l with
    | nil => exact absurd rfl hne
    | cons a l => simp at hl
  | succ f ih =>
    intro l hl hne
    cases l with
    | nil => exact absurd rfl hne
    | cons a l =>
      by_cases hsmall : (a :: l).length ≤ k
      · have hdrop : (a :: l).drop k = [] := by
          rw [List.drop_eq_nil_iff]
          exact hsmall
        have htake : (a :: l).take k = a :: l := List.take_of_length_le hsmall
        have hblocks : chunkGo k (f + 1) (a :: l) = [a :: l] := by
          simp only [chunkGo, hdrop, chunkGo_nil, htake]
        have hn1 : 1 ≤ (a :: l).length := by simp
        have hcount : ((a :: l).length + k - 1) / k = 1 := by
          have hlo : 1 * k ≤ (a :: l).length + k - 1 := by omega
          have hhi : (a :: l).length + k - 1 < (1 + 1) * k := by omega
          exact Nat.div_eq_of_lt_le hlo hhi
        rw [hblocks]
        refine ⟨by simp, ?_, ?_, ?_, ?_⟩
        · rw [hcount]
          rfl
        · intro i hi hilt
          simp only [List.length_singleton] at hilt
          omega
        · rw [List.getLastD_cons, List.getLastD_nil]
          exact hn1
        · rw [List.getLastD_cons, List.getLastD_nil]
          exact hsmall
      · push_neg at hsmall
        have hdropne : (a :: l).drop k ≠ [] := by
          intro hc
          have hlen := congrArg List.length hc
          rw [List.length_drop, List.length_nil] at hlen
          omega
        have hdroplen : ((a :: l).drop k).length ≤ f := by
          rw [List.length_drop]
          simp only [List.length_cons] at hl ⊢
          omega
        have ihd := ih ((a :: l).drop k) hdroplen hdropne
        have hcount2 : ((a :: l).length + k - 1) / k =
            (((a :: l).drop k).length + k - 1) / k + 1 := by
          have harith : (a :: l).length + k - 1 = (((a :: l).drop k).length + k - 1) + k := by
            rw [List.length_drop]
            omega
          rw [harith, Nat.add_div_right _ hk]
        have hrecne : chunkGo k f ((a :: l).drop k) ≠ [] := by
          intro hc
          have hlen := ihd.2.1
          rw [hc] at hlen
          simp only [List.length_nil] at hlen
          have hone : 1 ≤ (((a :: l).drop k).length + k - 1) / k := by
            rw [Nat.one_le_div_iff hk]
            have h1 : 1 ≤ ((a :: l).drop k).length := by
              rw [List.length_drop]
              omega
            omega
          omega
        refine ⟨?_, ?_, ?_, ?_, ?_⟩
        · show ((List.take k (a :: l) :: chunkGo k f (List.drop k (a :: l))).flatten) = a :: l
          rw [List.flatten_cons, ihd.1]
          exact List.take_append_drop k (a :: l)
        · show (List.take k (a :: l) :: chunkGo k f (List.drop k (a :: l))).length = _
          rw [List.length_cons, ihd.2.1, hcount2]
        · intro i hi hilt
          cases i with
          | zero =>
            show (List.take k (a :: l)).length = k
            rw [List.length_take]
            omega
          | succ j =>
            have hlen1 : (chunkGo k (f + 1) (a :: l)).length =
                (chunkGo k f (List.drop k (a :: l))).length + 1 := by
              show (List.take k (a :: l) :: chunkGo k f (List.drop k (a :: l))).length = _
              rw [List.length_cons]
            have hj : j < (chunkGo k f ((a :: l).drop k)).length := by
              rw [hlen1] at hi
              omega
            have hjlt : j + 1 < (chunkGo k f ((a :: l).drop k)).length := by
              rw [hlen1] at hilt
              omega
            exact ihd.2.2.1 j hj hjlt
        · show 1 ≤ ((List.take k (a :: l) :: chunkGo k f (List.drop k (a :: l))).getLastD []).length
          rw [List.getLastD_cons, getLastD_of_ne_nil hrecne (List.take k (a :: l)) []]
          exact ihd.2.2.2.1
        · show ((List.take k (a :: l) :: chunkGo k f (List.drop k (a :: l))).getLastD []).length ≤ k
          rw [List.getLastD_cons, getLastD_of_ne_nil hrecne (List.take k (a :: l)) []]
          exact ihd.2.2.2.2

/-- Embeds `place_sensors_sqrt_n` (`sensors.py` lines 18-57): DFS
preorder of the full graph from the source, chunks of size
`ceil(sqrt(n))`, one sensor at the last bus of each block; `([], [])`
when there is no source (or an empty ordering). -/
def place_sensors_sqrt_n (g : GridNetwork) : List Nat × List (List Nat) :=
  if g.ext_grid_bus < 0 then ([], [])
  else
    let ordering := dfs_preorder g.gedges g.ext_grid_bus.toNat
    if ordering.length = 0 then ([], [])
    else
      let k := ceilSqrt ordering.length
      let blocks := chunkList k ordering
      (blocks.map fun b => b.getLastD 0, blocks)

/-- C3: for a grid whose full graph is connected — the source a member of
its `n ≥ 1` nodes and every node reachable from it (stated through the
executable `reachSet`) — `place_sensors_sqrt_n` produces
`ceil(n / k)` blocks for `k = ceil(sqrt n)`; every block except possibly
the last has exactly `k` nodes and the last between 1 and `k`; the
concatenation of the blocks is the DFS preorder of the full graph from
the source, whose elements are exactly the node set with no duplicates;
and the sensor list holds each block's last node. -/
theorem C3_place_sensors_partition (g : GridNetwork)
    (hnd : g.nodes.Nodup)
    (hsv : sourceValid g)
    (hconn1 : ∀ x ∈ reachSet g.gedges g.ext_grid_bus.toNat, x ∈ g.nodes)
    (hconn2 : ∀ x ∈ g.nodes, x ∈ reachSet g.gedges g.ext_grid_bus.toNat) :
    (place_sensors_sqrt_n g).2.flatten = dfs_preorder g.gedges g.ext_grid_bus.toNat ∧
    (dfs_preorder g.gedges g.ext_grid_bus.toNat).Nodup ∧
    (∀ x, x ∈ dfs_preorder g.gedges g.ext_grid_bus.toNat ↔ x ∈ g.nodes) ∧
    (place_sensors_sqrt_n g).2.length =
      (g.nodes.length + ceilSqrt g.nodes.length - 1) / ceilSqrt g.nodes.length ∧
    (∀ i (hi : i < (place_sensors_sqrt_n g).2.length),
      i + 1 < (place_sensors_sqrt_n g).2.length →
      ((place_sensors_sqrt_n g).2.get ⟨i, hi⟩).length = ceilSqrt g.nodes.length) ∧
    1 ≤ ((place_sensors_sqrt_n g).2.getLastD []).length ∧
    ((place_sensors_sqrt_n g).2.getLastD []).length ≤ ceilSqrt g.nodes.length ∧
    (place_sensors_sqrt_n g).1 = (place_sensors_sqrt_n g).2.map fun b => b.getLastD 0 := by
  have hext : ¬ g.ext_grid_bus < 0 := by
    have := hsv.1
    omega
  have hmem : ∀ x, x ∈ dfs_preorder g.gedges g.ext_grid_bus.toNat ↔ x ∈ g.nodes := by
    intro x
    rw [mem_dfs_preorder]
    constructor
    · intro h
      exact hconn1 x (mem_reachSet_iff.mpr h)
    · intro h
      exact mem_reachSet_iff.mp (hconn2 x h)
  have hndord : (dfs_preorder g.gedges g.ext_grid_bus.toNat).Nodup := dfs_preorder_nodup _ _
  have hperm : List.Perm (dfs_preorder g.gedges g.ext_grid_bus.toNat) g.nodes :=
    (List.perm_ext_iff_of_nodup hndord hnd).mpr hmem
  have hlen : (dfs_preorder g.gedges g.ext_grid_bus.toNat).length = g.nodes.length :=
    hperm.length_eq
  have hnpos : 0 < g.nodes.length := by
    have hs : g.ext_grid_bus.toNat ∈ g.nodes := hsv.2
    cases hx : g.nodes with
    | nil => rw [hx] at hs; cases hs
    | cons a t => simp
  have hordne : dfs_preorder g.gedges g.ext_grid_bus.toNat ≠ [] := by
    intro hc
    rw [hc] at hlen
    simp at hlen
    omega
  have hlenne : ¬ (dfs_preorder g.gedges g.ext_grid_bus.toNat).length = 0 := by omega
  have hunf : place_sensors_sqrt_n g =
      ((chunkList (ceilSqrt (dfs_preorder g.gedges g.ext_grid_bus.toNat).length)
          (dfs_preorder g.gedges g.ext_grid_bus.toNat)).map (fun b => b.getLastD 0),
        chunkList (ceilSqrt (dfs_preorder g.gedges g.ext_grid_bus.toNat).length)
          (dfs_preorder g.gedges g.ext_grid_bus.toNat)) := by
    simp only [place_sensors_sqrt_n, if_neg hext, if_neg hlenne]
  have hkpos : 0 < ceilSqrt (dfs_preorder g.gedges g.ext_grid_bus.toNat).length := by
    apply ceilSqrt_pos
    omega
  have hspec := chunkGo_spec (ceilSqrt (dfs_preorder g.gedges g.ext_grid_bus.toNat).length)
    hkpos (dfs_preorder g.gedges g.ext_grid_bus.toNat).length
    (dfs_preorder g.gedges g.ext_grid_bus.toNat) (le_refl _) hordne
  rw [hlen] at hspec
  have heq : chunkList (ceilSqrt (dfs_preorder g.gedges g.ext_grid_bus.toNat).length)
      (dfs_preorder g.gedges g.ext_grid_bus.toNat) =
      chunkGo (ceilSqrt g.nodes.length) g.nodes.length
        (dfs_preorder g.gedges g.ext_grid_bus.toNat) := by
    unfold chunkList
    rw [hlen]
  rw [heq] at hunf
  rw [hunf]
  exact ⟨hspec.1, hndord, hmem, hspec.2.1, hspec.2.2.1, hspec.2.2.2.1, hspec.2.2.2.2, rfl⟩

/-- Example grid for C3: the spec's 9-node path `0-...-8` with source 0,
all lines in service. -/
def exG3 : GridNetwork :=
  { nodes := List.range 9,
    gedges := (List.range 8).map fun i => (i, i + 1),
    bus_geo := [], bus_voltage := [],
    line_list := (List.range 8).map fun i =>
      { idx := i, from_bus := i, to_bus := i + 1, voltage_kv := 11, name := "",
        power_type := "line", length_km := 1, in_service := true },
    ext_grid_bus := 0 }

theorem C3_place_sensors_partition_witness :
    (place_sensors_sqrt_n exG3).2.length =
      (exG3.nodes.length + ceilSqrt exG3.nodes.length - 1) / ceilSqrt exG3.nodes.length ∧
    (place_sensors_sqrt_n exG3).1 = ((place_sensors_sqrt_n exG3).2.map fun b => b.getLastD 0) ∧
    place_sensors_sqrt_n exG3 = ([2, 5, 8], [[0, 1, 2], [3, 4, 5], [6, 7, 8]]) := by
  have h := C3_place_sensors_partition exG3 (by decide) (by decide) (by decide) (by decide)
  exact ⟨h.2.2.2.1, h.2.2.2.2.2.2.2, by decide⟩

/-! ### Spatial graph builder (`build_grid_from_geojson`,
`grid_builder.py` lines 79-281)

Coordinates are exact rationals.  `_haversine` computes with `math.sin`,
`math.cos`, `math.sqrt` and `math.atan2`, which have no shallow
embedding; the builder is therefore parametrised by the distance
function `hav` (taking `lat1 lon1 lat2 lon2`, as in the source).  Python
`round(x, 4)` on a coordinate is modelled by the half-even-rounded
integer `x·10⁴` — the coordinate map only ever compares keys for
equality, and two rounded values are equal iff these integers are. -/

structure LineFeature where
  fid : Option String
  voltage : Option (List Char)
  power : Option String
  coords : List (List ℚ)
  deriving Repr, Inhabited

inductive SubGeometry
  | point (coords : List ℚ)
  | polygon (rings : List (List (ℚ × ℚ)))
  | other
  deriving Repr, Inhabited

structure SubFeature where
  voltage : Option (List Char)
  geom : SubGeometry
  deriving Repr, Inhabited

structure ClassifiedFeatures where
  lines : List LineFeature
  minor_lines : List LineFeature
  cables : List LineFeature
  substations : List SubFeature
  deriving Repr, Inhabited

/-- `round(q, 4)` as a dictionary key: `q·10⁴` rounded half-to-even. -/
def pyRound4Key (q : ℚ) : ℤ :=
  let n := q.num * 10000
  let d : ℤ := (q.den : ℤ)
  let f := Int.fdiv n d
  let r := n - f * d
  if 2 * r < d then f
  else if d < 2 * r then f + 1
  else if 2 ∣ f then f else f + 1

def keyOf (lon lat : ℚ) : ℤ × ℤ := (pyRound4Key lon, pyRound4Key lat)

/-- The length clamp of `build_grid_from_geojson` lines 153-154:
`if length_km < 0.001: length_km = 0.01`. -/
def clampLength (l : ℚ) : ℚ :=
  if l < mkRat 1 1000 then mkRat 1 100 else l

/-- Builder working state: the grid under construction plus the
coordinate-deduplication map and the running counters. -/
structure BState where
  coordMap : List ((ℤ × ℤ) × Nat)
  busCounter : Nat
  nodes : List Nat
  gedges : List (Nat × Nat)
  bus_geo : List (Nat × (ℚ × ℚ))
  bus_voltage : List (Nat × ℚ)
  lines : List Line
  line_idx : Nat
  deriving Repr, Inhabited

def emptyBState : BState :=
  { coordMap := [], busCounter := 0, nodes := [], gedges := [],
    bus_geo := [], bus_voltage := [], lines := [], line_idx := 0 }

/-- Coordinate deduplication (lines 131-141): look the rounded key up,
else create a fresh bus. -/
def getOrCreateBus (st : BState) (vkv : ℚ) (lon lat : ℚ) : BState × Nat :=
  let key := keyOf lon lat
  match st.coordMap.lookup key with
  | some bid => (st, bid)
  | none =>
    let bid := st.busCounter
    ({ st with
        coordMap := st.coordMap ++ [(key, bid)],
        busCounter := bid + 1,
        nodes := st.nodes ++ [bid],
        bus_geo := st.bus_geo ++ [(bid, (lon, lat))],
        bus_voltage := st.bus_voltage ++ [(bid, vkv)] }, bid)

/-- The `line_bus_ids` loop (lines 126-141); positions with fewer than
two entries are skipped. -/
def collectBusIds (vkv : ℚ) : BState → List (List ℚ) → BState × List Nat
  | st, [] => (st, [])
  | st, c :: rest =>
    match c with
    | lon :: lat :: _ =>
      let p1 := getOrCreateBus st vkv lon lat
      let p2 := collectBusIds vkv p1.1 rest
      (p2.1, p1.2 :: p2.2)
    | _ => collectBusIds vkv st rest

def geoOf (st : BState) (b : Nat) : ℚ × ℚ := (st.bus_geo.lookup b).getD (0, 0)

/-- `nx.Graph.add_edge`: a no-op when the undirected edge exists. -/
def addGEdge (E : List (Nat × Nat)) (a b : Nat) : List (Nat × Nat) :=
  if adjacent E a b then E else E ++ [(a, b)]

/-- The consecutive-pair edge loop (lines 144-170). -/
def addSegments (hav : ℚ → ℚ → ℚ → ℚ → ℚ) (vkv : ℚ) (fid : String) (ptype : String) :
    BState → Nat → List Nat → BState
  | st, _, [] => st
  | st, _, [_] => st
  | st, i, fb :: tb :: rest =>
    if fb = tb then addSegments hav vkv fid ptype st (i + 1) (tb :: rest)
    else
      let gf := geoOf st fb
      let gt := geoOf st tb
      let lkm := clampLength (hav gf.2 gf.1 gt.2 gt.1)
      let line : Line :=
        { idx := st.line_idx, from_bus := fb, to_bus := tb, voltage_kv := vkv,
          name := "L_" ++ fid ++ "_" ++ toString i ++ "_" ++ toString vkv ++ "kV",
          power_type := ptype, length_km := lkm, in_service := true }
      addSegments hav vkv fid ptype
        { st with
          gedges := addGEdge st.gedges fb tb,
          lines := st.lines ++ [line],
          line_idx := st.line_idx + 1 }
        (i + 1) (tb :: rest)

/-- One iteration of the feature loop (lines 113-174). -/
def processFeature (hav : ℚ → ℚ → ℚ → ℚ → ℚ) (st : BState) (fi : Nat)
    (feat : LineFeature) : BState :=
  let vkv := parse_voltage_kv (feat.voltage.getD [])
  let ptype := feat.power.getD "line"
  let fid := feat.fid.getD ("feat_" ++ toString fi)
  if feat.coords.length < 2 then st
  else
    let p := collectBusIds vkv st feat.coords
    addSegments hav vkv fid ptype p.1 0 p.2

def processFeatures (hav : ℚ → ℚ → ℚ → ℚ → ℚ) :
    BState → Nat → List LineFeature → BState
  | st, _, [] => st
  | st, i, f :: rest => processFeatures hav (processFeature hav st i f) (i + 1) rest

/-- `nx.is_connected(G)`: every node reachable from the first (the empty
case is guarded by the `bus_counter == 0` early return). -/
def isConnectedG (V : List Nat) (E : List (Nat × Nat)) : Bool :=
  match V with
  | [] => true
  | v :: _ => V.all fun b => (reachSet E v).contains b

/-- One step of the `nx.connected_components` enumeration: a new class
for each node not yet assigned one. -/
def compStep (V : List Nat) (E : List (Nat × Nat)) (acc : List (List Nat)) (v : Nat) :
    List (List Nat) :=
  if acc.any fun c => c.contains v then acc
  else acc ++ [V.filter fun b => (reachSet E v).contains b]

/-- `nx.connected_components(G)`: one class per first-seen node, each
listed in node-insertion order. -/
def componentsOf (V : List Nat) (E : List (Nat × Nat)) : List (List Nat) :=
  V.foldl (compStep V E) []

def maxStep (best c2 : List Nat) : List Nat :=
  if best.length < c2.length then c2 else best

/-- Python `max(components, key=len)`: the first component of maximal
size. -/
def maxByLen (cs : List (List Nat)) : List Nat :=
  match cs with
  | [] => []
  | c :: rest => rest.foldl maxStep c

/-- Representative coordinate of a substation geometry (Point coords, or
first vertex of the first polygon ring). -/
def subRep (g : SubGeometry) : Option (ℚ × ℚ) :=
  match g with
  | SubGeometry.point cs =>
    match cs with
    | lon :: lat :: _ => some (lon, lat)
    | _ => none
  | SubGeometry.polygon rings =>
    match rings.headD [] with
    | [] => none
    | c :: _ => some c
  | SubGeometry.other => none

/-- One substation step of `_find_best_source_bus`. -/
def sourceStep (nodes : List Nat) (coordMap : List ((ℤ × ℤ) × Nat))
    (best : Option Nat × ℚ) (f : SubFeature) : Option Nat × ℚ :=
  let vkv := parse_voltage_kv (f.voltage.getD [])
  match subRep f.geom with
  | none => best
  | some cp =>
    match coordMap.lookup (keyOf cp.1 cp.2) with
    | none => best
    | some bid =>
      if nodes.contains bid ∧ best.2 < vkv then (some bid, vkv) else best

/-- Embeds `_find_best_source_bus` (lines 228-269): the substation with
the highest parsed voltage whose representative coordinate resolves to a
retained bus, else the first retained node. -/
def findBestSourceBus (nodes : List Nat) (coordMap : List ((ℤ × ℤ) × Nat))
    (subs : List SubFeature) : Int :=
  match (subs.foldl (sourceStep nodes coordMap) (none, 0)).1 with
  | some b => Int.ofNat b
  | none => Int.ofNat (nodes.headD 0)

/-- Step 2 of `build_grid_from_geojson` (lines 186-211): keep only the
largest connected component and re-index the retained line records. -/
def pruneState (st : BState) : BState :=
  let largest := maxByLen (componentsOf st.nodes st.gedges)
  { st with
    nodes := st.nodes.filter fun b => largest.contains b,
    gedges := st.gedges.filter fun e => largest.contains e.1 && largest.contains e.2,
    bus_geo := st.bus_geo.filter fun p => largest.contains p.1,
    bus_voltage := st.bus_voltage.filter fun p => largest.contains p.1,
    lines := ((st.lines.filter fun l =>
        largest.contains l.from_bus && largest.contains l.to_bus).enum.map
      fun p => { p.2 with idx := p.1 }) }

/-- Step 3 of `build_grid_from_geojson` (lines 213-225): publish the
(possibly pruned) state with the chosen source bus attached.  `pruneState`
leaves `coordMap` untouched, so passing the pruned state's map matches the
source's use of the original `coord_to_bus`. -/
def attachSource (subs : List SubFeature) (st2 : BState) : GridNetwork :=
  { nodes := st2.nodes, gedges := st2.gedges, bus_geo := st2.bus_geo,
    bus_voltage := st2.bus_voltage, line_list := st2.lines,
    ext_grid_bus := findBestSourceBus st2.nodes st2.coordMap subs }

/-- Steps 2-3 of `build_grid_from_geojson`: the `bus_counter == 0` early
return, component pruning, and source attachment. -/
def finishGrid (subs : List SubFeature) (st : BState) : GridNetwork :=
  if st.busCounter = 0 then
    { nodes := st.nodes, gedges := st.gedges, bus_geo := st.bus_geo,
      bus_voltage := st.bus_voltage, line_list := st.lines, ext_grid_bus := -1 }
  else
    attachSource subs (if isConnectedG st.nodes st.gedges then st else pruneState st)

/-- Embeds `build_grid_from_geojson` (lines 79-225). -/
def build_grid_from_geojson (hav : ℚ → ℚ → ℚ → ℚ → ℚ)
    (classified : ClassifiedFeatures) (max_lines : Nat := 5000) : GridNetwork :=
  finishGrid classified.substations
    (processFeatures hav emptyBState 0
      (classified.lines.take max_lines ++ classified.minor_lines.take 100 ++
        classified.cables.take 100))

/-- The full-topology edge list of a grid: one edge per stored line
record, service status ignored. -/
def fullEdges (g : GridNetwork) : List (Nat × Nat) :=
  g.line_list.map fun l => (l.from_bus, l.to_bus)

/-! #### Adjacency algebra used by the builder proofs -/

theorem adjacent_append {E F : List (Nat × Nat)} {a b : Nat} :
    adjacent (E ++ F) a b = (adjacent E a b || adjacent F a b) := by
  simp [adjacent, List.any_append]

theorem adjacent_single {u v x y : Nat} (h : adjacent [(u, v)] x y = true) :
    (x = u ∧ y = v) ∨ (x = v ∧ y = u) := by
  rcases adjacent_iff.mp h with ⟨e, he, hc⟩
  rw [List.mem_singleton] at he
  subst he
  rcases hc with ⟨h1, h2⟩ | ⟨h1, h2⟩
  · exact Or.inl ⟨h1.symm, h2.symm⟩
  · exact Or.inr ⟨h2.symm, h1.symm⟩

theorem addGEdge_adjacent {E : List (Nat × Nat)} {u v x y : Nat} :
    adjacent (addGEdge E u v) x y = (adjacent E x y || adjacent [(u, v)] x y) := by
  unfold addGEdge
  by_cases hE : adjacent E u v = true
  · rw [if_pos hE]
    cases hxy : adjacent [(u, v)] x y with
    | false => simp
    | true =>
      rcases adjacent_single hxy with ⟨rfl, rfl⟩ | ⟨rfl, rfl⟩
      · simp [hE]
      · simp [adjacent_comm.trans hE]
  · rw [if_neg hE]
    exact adjacent_append

theorem adjacent_filter_both {E : List (Nat × Nat)} (c : Nat → Bool) {x y : Nat} :
    adjacent (E.filter fun e => c e.1 && c e.2) x y = (adjacent E x y && (c x && c y)) := by
  cases hlhs : adjacent (E.filter fun e => c e.1 && c e.2) x y with
  | true =>
    rcases adjacent_iff.mp hlhs with ⟨e, he, hc⟩
    have hmem := List.mem_filter.mp he
    have hcc := hmem.2
    simp only [Bool.and_eq_true] at hcc
    have hadjE : adjacent E x y = true := adjacent_iff.mpr ⟨e, hmem.1, hc⟩
    rcases hc with ⟨h1, h2⟩ | ⟨h1, h2⟩
    · have hcx : c x = true := h1 ▸ hcc.1
      have hcy : c y = true := h2 ▸ hcc.2
      rw [hadjE, hcx, hcy]
      rfl
    · have hcx : c x = true := h2 ▸ hcc.2
      have hcy : c y = true := h1 ▸ hcc.1
      rw [hadjE, hcx, hcy]
      rfl
  | false =>
    cases hrhs : (adjacent E x y && (c x && c y)) with
    | false => rfl
    | true =>
      simp only [Bool.and_eq_true] at hrhs
      rcases adjacent_iff.mp hrhs.1 with ⟨e, he, hc⟩
      have hfilter : e ∈ E.filter fun e => c e.1 && c e.2 := by
        refine List.mem_filter.mpr ⟨he, ?_⟩
        rcases hc with ⟨h1, h2⟩ | ⟨h1, h2⟩
        · simp [h1, h2, hrhs.2.1, hrhs.2.2]
        · simp [h1, h2, hrhs.2.1, hrhs.2.2]
      have : adjacent (E.filter fun e => c e.1 && c e.2) x y = true :=
        adjacent_iff.mpr ⟨e, hfilter, hc⟩
      rw [this] at hlhs
      cases hlhs

/-- Reachability only visits the start node and edge endpoints. -/
theorem reach_mem_nodesOf {E : List (Nat × Nat)} {s x : Nat} (h : Reach E s x) :
    x = s ∨ x ∈ nodesOf E := by
  induction h with
  | refl => exact Or.inl rfl
  | step _ hadj _ => exact Or.inr (adjacent_mem_nodesOf hadj).2

/-! #### The builder's state invariant -/

/-- Invariant maintained by the feature-processing loop. -/
structure BInv (hav : ℚ → ℚ → ℚ → ℚ → ℚ) (st : BState) : Prop where
  edges_wf : ∀ e ∈ st.gedges, e.1 ∈ st.nodes ∧ e.2 ∈ st.nodes
  lines_wf : ∀ l ∈ st.lines, l.from_bus ∈ st.nodes ∧ l.to_bus ∈ st.nodes
  pair_equiv : ∀ a b, adjacent st.gedges a b =
    adjacent (st.lines.map fun l => (l.from_bus, l.to_bus)) a b
  idx_pos : ∀ i (hi : i < st.lines.length), (st.lines.get ⟨i, hi⟩).idx = i
  line_idx_eq : st.line_idx = st.lines.length
  in_service_all : ∀ l ∈ st.lines, l.in_service = true
  nodes_nodup : st.nodes.Nodup
  counter_bound : ∀ b ∈ st.nodes, b < st.busCounter
  counter_eq : st.busCounter = st.nodes.length
  coord_wf : ∀ p ∈ st.coordMap, p.2 ∈ st.nodes
  lengths : ∀ l ∈ st.lines, ∃ p : ℚ × ℚ × ℚ × ℚ,
    l.length_km = clampLength (hav p.1 p.2.1 p.2.2.1 p.2.2.2)

theorem bInv_empty (hav : ℚ → ℚ → ℚ → ℚ → ℚ) : BInv hav emptyBState where
  edges_wf := by intro e he; cases he
  lines_wf := by intro l hl; cases hl
  pair_equiv := by intro a b; rfl
  idx_pos := by intro i hi; exact absurd hi (by simp [emptyBState])
  line_idx_eq := rfl
  in_service_all := by intro l hl; cases hl
  nodes_nodup := List.nodup_nil
  counter_bound := by intro b hb; cases hb
  counter_eq := rfl
  coord_wf := by intro p hp; cases hp
  lengths := by intro l hl; cases hl

theorem lookup_mem {α β : Type} [BEq α] [LawfulBEq α] {l : List (α × β)} {k : α} {b : β}
    (h : l.lookup k = some b) : (k, b) ∈ l := by
  induction l with
  | nil => cases h
  | cons p rest ih =>
    rcases p with ⟨k2, v2⟩
    simp only [List.lookup] at h
    cases hbeq : (k == k2) with
    | true =>
      rw [hbeq] at h
      simp only [Option.some.injEq] at h
      have hk : k = k2 := eq_of_beq hbeq
      subst hk
      subst h
      exact List.mem_cons_self _ _
    | false =>
      rw [hbeq] at h
      exact List.mem_cons_of_mem _ (ih h)

theorem getOrCreateBus_spec (hav : ℚ → ℚ → ℚ → ℚ → ℚ) (st : BState) (v lon lat : ℚ)
    (hinv : BInv hav st) :
    BInv hav (getOrCreateBus st v lon lat).1 ∧
    (∀ b ∈ st.nodes, b ∈ (getOrCreateBus st v lon lat).1.nodes) ∧
    (getOrCreateBus st v lon lat).2 ∈ (getOrCreateBus st v lon lat).1.nodes ∧
    (getOrCreateBus st v lon lat).1.gedges = st.gedges ∧
    (getOrCreateBus st v lon lat).1.lines = st.lines ∧
    (getOrCreateBus st v lon lat).1.line_idx = st.line_idx := by
  cases hl : st.coordMap.lookup (keyOf lon lat) with
  | some bid =>
    have hred : getOrCreateBus st v lon lat = (st, bid) := by
      simp only [getOrCreateBus]
      rw [hl]
    rw [hred]
    exact ⟨hinv, fun b hb => hb, hinv.coord_wf _ (lookup_mem hl), rfl, rfl, rfl⟩
  | none =>
    have hred : getOrCreateBus st v lon lat =
        ({ st with
            coordMap := st.coordMap ++ [(keyOf lon lat, st.busCounter)],
            busCounter := st.busCounter + 1,
            nodes := st.nodes ++ [st.busCounter],
            bus_geo := st.bus_geo ++ [(st.busCounter, (lon, lat))],
            bus_voltage := st.bus_voltage ++ [(st.busCounter, v)] }, st.busCounter) := by
      simp only [getOrCreateBus]
      rw [hl]
    rw [hred]
    have hnotin : st.busCounter ∉ st.nodes := fun hc => by
      have := hinv.counter_bound _ hc
      omega
    refine ⟨?_, fun b hb => List.mem_append.mpr (Or.inl hb), ?_, rfl, rfl, rfl⟩
    · constructor
      · intro e he
        have h := hinv.edges_wf e he
        exact ⟨List.mem_append.mpr (Or.inl h.1), List.mem_append.mpr (Or.inl h.2)⟩
      · intro l hl2
        have h := hinv.lines_wf l hl2
        exact ⟨List.mem_append.mpr (Or.inl h.1), List.mem_append.mpr (Or.inl h.2)⟩
      · exact hinv.pair_equiv
      · exact hinv.idx_pos
      · exact hinv.line_idx_eq
      · exact hinv.in_service_all
      · refine List.Nodup.append hinv.nodes_nodup (List.nodup_singleton _) ?_
        intro x hx hx2
        rw [List.mem_singleton] at hx2
        exact hnotin (hx2 ▸ hx)
      · intro b hb
        show b < st.busCounter + 1
        rcases List.mem_append.mp hb with h | h
        · have := hinv.counter_bound _ h
          omega
        · rw [List.mem_singleton] at h
          omega
      · show st.busCounter + 1 = _
        rw [List.length_append, List.length_singleton, hinv.counter_eq]
      · intro p hp
        rcases List.mem_append.mp hp with h | h
        · exact List.mem_append.mpr (Or.inl (hinv.coord_wf _ h))
        · rw [List.mem_singleton] at h
          subst h
          exact List.mem_append.mpr (Or.inr (by simp))
      · exact hinv.lengths
    · exact List.mem_append.mpr (Or.inr (by simp))

theorem collectBusIds_spec (hav : ℚ → ℚ → ℚ → ℚ → ℚ) (v : ℚ) :
    ∀ (coords : List (List ℚ)) (st : BState), BInv hav st →
      BInv hav (collectBusIds v st coords).1 ∧
      (∀ b ∈ st.nodes, b ∈ (collectBusIds v st coords).1.nodes) ∧
      (∀ b ∈ (collectBusIds v st coords).2, b ∈ (collectBusIds v st coords).1.nodes) ∧
      (collectBusIds v st coords).1.gedges = st.gedges ∧
      (collectBusIds v st coords).1.lines = st.lines ∧
      (collectBusIds v st coords).1.line_idx = st.line_idx := by
  intro coords
  induction coords with
  | nil =>
    intro st hinv
    refine ⟨hinv, fun b hb => hb, ?_, rfl, rfl, rfl⟩
    intro b hb
    simp only [collectBusIds] at hb
    cases hb
  | cons c rest ih =>
    intro st hinv
    match c with
    | [] =>
      simp only [collectBusIds]
      exact ih st hinv
    | [x] =>
      simp only [collectBusIds]
      exact ih st hinv
    | lon :: lat :: tail =>
      have hg := getOrCreateBus_spec hav st v lon lat hinv
      have hc := ih (getOrCreateBus st v lon lat).1 hg.1
      simp only [collectBusIds]
      refine ⟨hc.1, ?_, ?_, ?_, ?_, ?_⟩
      · intro b hb
        exact hc.2.1 b (hg.2.1 b hb)
      · intro b hb
        rcases List.mem_cons.mp hb with rfl | hb
        · exact hc.2.1 _ hg.2.2.1
        · exact hc.2.2.1 b hb
      · exact hc.2.2.2.1.trans hg.2.2.2.1
      · exact hc.2.2.2.2.1.trans hg.2.2.2.2.1
      · exact hc.2.2.2.2.2.trans hg.2.2.2.2.2

theorem idx_pos_append {ls : List Line} {l : Line}
    (h : ∀ i (hi : i < ls.length), (ls.get ⟨i, hi⟩).idx = i) (hl : l.idx = ls.length) :
    ∀ i (hi : i < (ls ++ [l]).length), ((ls ++ [l]).get ⟨i, hi⟩).idx = i := by
  intro i hi
  rw [List.length_append, List.length_singleton] at hi
  rw [List.get_eq_getElem]
  by_cases hlt : i < ls.length
  · rw [List.getElem_append_left hlt]
    have h2 := h i hlt
    rw [List.get_eq_getElem] at h2
    exact h2
  · have hieq : i = ls.length := by omega
    subst hieq
    rw [List.getElem_append_right (le_refl _)]
    simpa using hl

theorem bInv_addLine (hav : ℚ → ℚ → ℚ → ℚ → ℚ) {st : BState} (hinv : BInv hav st)
    {fb tb : Nat} (hfb : fb ∈ st.nodes) (htb : tb ∈ st.nodes)
    (vkv : ℚ) (nm pt : String) (qa qb qc qd : ℚ) :
    BInv hav { st with
      gedges := addGEdge st.gedges fb tb,
      lines := st.lines ++ [{ idx := st.line_idx, from_bus := fb, to_bus := tb,
                              voltage_kv := vkv, name := nm, power_type := pt,
                              length_km := clampLength (hav qa qb qc qd),
                              in_service := true }],
      line_idx := st.line_idx + 1 } := by
  constructor
  · intro e he
    show e.1 ∈ st.nodes ∧ e.2 ∈ st.nodes
    unfold addGEdge at he
    by_cases hadj : adjacent st.gedges fb tb = true
    · rw [if_pos hadj] at he
      exact hinv.edges_wf e he
    · rw [if_neg hadj] at he
      rcases List.mem_append.mp he with h | h
      · exact hinv.edges_wf e h
      · rw [List.mem_singleton] at h
        subst h
        exact ⟨hfb, htb⟩
  · intro l hl
    show l.from_bus ∈ st.nodes ∧ l.to_bus ∈ st.nodes
    rcases List.mem_append.mp hl with h | h
    · exact hinv.lines_wf l h
    · rw [List.mem_singleton] at h
      subst h
      exact ⟨hfb, htb⟩
  · intro x y
    show adjacent (addGEdge st.gedges fb tb) x y = _
    rw [addGEdge_adjacent, List.map_append, adjacent_append, hinv.pair_equiv x y]
    rfl
  · exact idx_pos_append hinv.idx_pos hinv.line_idx_eq
  · show st.line_idx + 1 = _
    rw [List.length_append, List.length_singleton, hinv.line_idx_eq]
  · intro l hl
    rcases List.mem_append.mp hl with h | h
    · exact hinv.in_service_all l h
    · rw [List.mem_singleton] at h
      subst h
      rfl
  · exact hinv.nodes_nodup
  · exact hinv.counter_bound
  · exact hinv.counter_eq
  · exact hinv.coord_wf
  · intro l hl
    rcases List.mem_append.mp hl with h | h
    · exact hinv.lengths l h
    · rw [List.mem_singleton] at h
      subst h
      exact ⟨(qa, qb, qc, qd), rfl⟩

theorem addSegments_spec (hav : ℚ → ℚ → ℚ → ℚ → ℚ) (v : ℚ) (fid ptype : String) :
    ∀ (ids : List Nat) (st : BState) (i : Nat), BInv hav st →
      (∀ b ∈ ids, b ∈ st.nodes) →
      BInv hav (addSegments hav v fid ptype st i ids) ∧
      (addSegments hav v fid ptype st i ids).nodes = st.nodes ∧
      (addSegments hav v fid ptype st i ids).busCounter = st.busCounter ∧
      (addSegments hav v fid ptype st i ids).coordMap = st.coordMap := by
  intro ids
  induction ids with
  | nil =>
    intro st i hinv _
    exact ⟨hinv, rfl, rfl, rfl⟩
  | cons fb rest ih =>
    intro st i hinv hmem
    cases rest with
    | nil => exact ⟨hinv, rfl, rfl, rfl⟩
    | cons tb rest2 =>
      by_cases heq : fb = tb
      · have hred : addSegments hav v fid ptype st i (fb :: tb :: rest2) =
            addSegments hav v fid ptype st (i + 1) (tb :: rest2) := by
          simp only [addSegments]
          rw [if_pos heq]
        rw [hred]
        exact ih st (i + 1) hinv fun b hb => hmem b (List.mem_cons_of_mem _ hb)
      · have hred : addSegments hav v fid ptype st i (fb :: tb :: rest2) =
            addSegments hav v fid ptype
              { st with
                gedges := addGEdge st.gedges fb tb,
                lines := st.lines ++ [{ idx := st.line_idx, from_bus := fb, to_bus := tb,
                                        voltage_kv := v,
                                        name := "L_" ++ fid ++ "_" ++ toString i ++ "_" ++
                                          toString v ++ "kV",
                                        power_type := ptype,
                                        length_km := clampLength
                                          (hav (geoOf st fb).2 (geoOf st fb).1
                                            (geoOf st tb).2 (geoOf st tb).1),
                                        in_service := true }],
                line_idx := st.line_idx + 1 } (i + 1) (tb :: rest2) := by
          simp only [addSegments]
          rw [if_neg heq]
        rw [hred]
        have hinv1 := bInv_addLine hav hinv (hmem fb (List.mem_cons_self _ _))
          (hmem tb (List.mem_cons_of_mem _ (List.mem_cons_self _ _))) v
          ("L_" ++ fid ++ "_" ++ toString i ++ "_" ++ toString v ++ "kV") ptype
          (geoOf st fb).2 (geoOf st fb).1 (geoOf st tb).2 (geoOf st tb).1
        have hres := ih _ (i + 1) hinv1
          (fun b hb => hmem b (List.mem_cons_of_mem _ hb))
        exact hres

theorem processFeature_spec (hav : ℚ → ℚ → ℚ → ℚ → ℚ) (st : BState) (fi : Nat)
    (f : LineFeature) (hinv : BInv hav st) : BInv hav (processFeature hav st fi f) := by
  simp only [processFeature]
  by_cases hc : f.coords.length < 2
  · rw [if_pos hc]
    exact hinv
  · rw [if_neg hc]
    have hcb := collectBusIds_spec hav (parse_voltage_kv (f.voltage.getD [])) f.coords st hinv
    exact (addSegments_spec hav _ _ _ _ _ 0 hcb.1 hcb.2.2.1).1

theorem processFeatures_spec (hav : ℚ → ℚ → ℚ → ℚ → ℚ) :
    ∀ (feats : List LineFeature) (st : BState) (i : Nat), BInv hav st →
      BInv hav (processFeatures hav st i feats) := by
  intro feats
  induction feats with
  | nil => intro st i hinv; exact hinv
  | cons f rest ih =>
    intro st i hinv
    exact ih _ (i + 1) (processFeature_spec hav st i f hinv)

/-! #### Component pruning and source selection -/

theorem foldl_preserve {α β : Type} (P : β → Prop) (f : β → α → β)
    (hstep : ∀ b a, P b → P (f b a)) :
    ∀ (l : List α) (init : β), P init → P (l.foldl f init) := by
  intro l
  induction l with
  | nil => intro init h; exact h
  | cons a rest ih =>
    intro init h
    exact ih _ (hstep init a h)

theorem headD_mem {l : List Nat} (h : l ≠ []) (d : Nat) : l.headD d ∈ l := by
  cases l with
  | nil => exact absurd rfl h
  | cons a rest => exact List.mem_cons_self _ _

theorem contains_iff {l : List Nat} {x : Nat} : l.contains x = true ↔ x ∈ l := by
  simp [List.contains, List.elem_eq_mem]

theorem componentsOf_aux {V : List Nat} {E : List (Nat × Nat)} :
    ∀ (l : List Nat) (acc : List (List Nat)),
      (∀ a ∈ l, a ∈ V) →
      (∀ c ∈ acc, ∃ r, r ∈ V ∧ c = V.filter fun b => (reachSet E r).contains b) →
      ∀ c ∈ l.foldl (compStep V E) acc,
        ∃ r, r ∈ V ∧ c = V.filter fun b => (reachSet E r).contains b := by
  intro l
  induction l with
  | nil => intro acc _ hacc; exact hacc
  | cons v rest ih =>
    intro acc hl hacc
    rw [List.foldl_cons]
    refine ih _ (fun a ha => hl a (List.mem_cons_of_mem _ ha)) ?_
    intro c hc
    unfold compStep at hc
    split at hc
    · exact hacc c hc
    · rcases List.mem_append.mp hc with h2 | h2
      · exact hacc c h2
      · rw [List.mem_singleton] at h2
        exact ⟨v, hl v (List.mem_cons_self _ _), h2⟩

theorem componentsOf_mem_class {V : List Nat} {E : List (Nat × Nat)} :
    ∀ c ∈ componentsOf V E,
      ∃ r, r ∈ V ∧ c = V.filter fun b => (reachSet E r).contains b := by
  unfold componentsOf
  exact componentsOf_aux V [] (fun a ha => ha) (fun c hc => absurd hc (by simp))

theorem componentsOf_ne_nil {V : List Nat} {E : List (Nat × Nat)} (h : V ≠ []) :
    componentsOf V E ≠ [] := by
  unfold componentsOf
  cases V with
  | nil => exact absurd rfl h
  | cons v rest =>
    rw [List.foldl_cons]
    have hstep1 : compStep (v :: rest) E [] v =
        [(v :: rest).filter fun b => (reachSet E v).contains b] := by
      unfold compStep
      rw [if_neg (by simp)]
      rfl
    rw [hstep1]
    exact foldl_preserve (fun acc : List (List Nat) => acc ≠ []) (compStep (v :: rest) E)
      (by
        intro b a hb
        unfold compStep
        split
        · exact hb
        · intro hc
          rcases List.append_eq_nil.mp hc with ⟨_, h2⟩
          cases h2) rest _ (by
        intro hc
        cases hc)

theorem foldl_maxStep_mem : ∀ (l : List (List Nat)) (b : List Nat),
    l.foldl maxStep b ∈ b :: l := by
  intro l
  induction l with
  | nil => intro b; exact List.mem_cons_self _ _
  | cons c2 l2 ih =>
    intro b
    rw [List.foldl_cons]
    rcases List.mem_cons.mp (ih (maxStep b c2)) with h2 | h2
    · rw [h2]
      unfold maxStep
      split
      · exact List.mem_cons_of_mem _ (List.mem_cons_self _ _)
      · exact List.mem_cons_self _ _
    · exact List.mem_cons_of_mem _ (List.mem_cons_of_mem _ h2)

theorem maxByLen_mem {cs : List (List Nat)} (h : cs ≠ []) : maxByLen cs ∈ cs := by
  match cs with
  | [] => exact absurd rfl h
  | c :: rest =>
    show rest.foldl maxStep c ∈ c :: rest
    exact foldl_maxStep_mem rest c

theorem filter_mem_filter {V : List Nat} {p : Nat → Bool} :
    (V.filter fun b => (V.filter p).contains b) = V.filter p := by
  apply List.filter_congr
  intro b hb
  cases hp : p b with
  | true =>
    have : b ∈ V.filter p := List.mem_filter.mpr ⟨hb, hp⟩
    rw [contains_iff.mpr this]
  | false =>
    cases hc : (V.filter p).contains b with
    | false => rfl
    | true =>
      have := (List.mem_filter.mp (contains_iff.mp hc)).2
      rw [this] at hp
      cases hp

theorem adjacent_mem_V {E : List (Nat × Nat)} {V : List Nat}
    (hwfE : ∀ e ∈ E, e.1 ∈ V ∧ e.2 ∈ V) {x y : Nat}
    (h : adjacent E x y = true) : x ∈ V ∧ y ∈ V := by
  rcases adjacent_iff.mp h with ⟨e, he, hcase⟩
  have hm := hwfE e he
  rcases hcase with ⟨h1, h2⟩ | ⟨h1, h2⟩
  · exact ⟨h1 ▸ hm.1, h2 ▸ hm.2⟩
  · exact ⟨h2 ▸ hm.2, h1 ▸ hm.1⟩

theorem reach_filter_mono {E : List (Nat × Nat)} {q : Nat × Nat → Bool} {s b : Nat}
    (h : Reach (E.filter q) s b) : Reach E s b := by
  induction h with
  | refl => exact Reach.refl
  | step _ hadj ih =>
    refine Reach.step ih ?_
    rcases adjacent_iff.mp hadj with ⟨e, he, hc⟩
    exact adjacent_iff.mpr ⟨e, (List.mem_filter.mp he).1, hc⟩

theorem reach_filter_endpoint {E : List (Nat × Nat)} {c : Nat → Bool} {s b : Nat}
    (h : Reach (E.filter fun e => c e.1 && c e.2) s b) : b = s ∨ c b = true := by
  induction h with
  | refl => exact Or.inl rfl
  | step _ hadj _ =>
    right
    rw [adjacent_filter_both] at hadj
    simp only [Bool.and_eq_true] at hadj
    exact hadj.2.2

theorem reach_filter_class {E : List (Nat × Nat)} {V : List Nat} {c : Nat → Bool} {r s : Nat}
    (hwfE : ∀ e ∈ E, e.1 ∈ V ∧ e.2 ∈ V)
    (hc : ∀ x, c x = true ↔ (x ∈ V ∧ Reach E r x))
    (hrs : Reach E r s) :
    ∀ {b : Nat}, Reach E s b → Reach (E.filter fun e => c e.1 && c e.2) s b := by
  intro b h
  induction h with
  | refl => exact Reach.refl
  | @step a b2 ha hadj ih =>
    refine Reach.step ih ?_
    rw [adjacent_filter_both]
    have hmem := adjacent_mem_V hwfE hadj
    have hca : c a = true := (hc a).mpr ⟨hmem.1, hrs.trans ha⟩
    have hcb : c b2 = true := (hc b2).mpr ⟨hmem.2, (hrs.trans ha).step hadj⟩
    rw [hadj, hca, hcb]
    rfl

theorem sourceStep_fst (nodes : List Nat) (cm : List ((ℤ × ℤ) × Nat))
    (best : Option Nat × ℚ) (f : SubFeature) :
    (sourceStep nodes cm best f).1 = best.1 ∨
    ∃ bid, (sourceStep nodes cm best f).1 = some bid ∧ bid ∈ nodes := by
  unfold sourceStep
  split
  · exact Or.inl rfl
  · split
    · exact Or.inl rfl
    · dsimp only
      split
      · rename_i hcond
        exact Or.inr ⟨_, rfl, contains_iff.mp hcond.1⟩
      · exact Or.inl rfl

theorem findBestSourceBus_mem (nodes : List Nat) (cm : List ((ℤ × ℤ) × Nat))
    (subs : List SubFeature) (hne : nodes ≠ []) :
    0 ≤ findBestSourceBus nodes cm subs ∧
    (findBestSourceBus nodes cm subs).toNat ∈ nodes := by
  unfold findBestSourceBus
  have hfold := foldl_preserve
    (fun best : Option Nat × ℚ => ∀ b, best.1 = some b → b ∈ nodes)
    (sourceStep nodes cm) ?_ subs (none, 0) ?_
  · cases hf : (subs.foldl (sourceStep nodes cm) (none, 0)).1 with
    | some b =>
      constructor
      · exact Int.ofNat_nonneg b
      · exact hfold b hf
    | none =>
      constructor
      · exact Int.ofNat_nonneg _
      · exact headD_mem hne 0
  · intro best f hP b hb
    rcases sourceStep_fst nodes cm best f with h1 | ⟨bid, h2, h3⟩
    · rw [h1] at hb
      exact hP b hb
    · rw [h2] at hb
      injection hb with hbb
      exact hbb ▸ h3
  · intro b hb
    cases hb


/-! #### Re-indexing lemmas -/

theorem snd_mem_of_mem_enumFrom {α : Type} :
    ∀ (l : List α) (n : Nat) (p : Nat × α), p ∈ List.enumFrom n l → p.2 ∈ l := by
  intro l
  induction l with
  | nil => intro n p hp; cases hp
  | cons a rest ih =>
    intro n p hp
    rcases List.mem_cons.mp hp with h1 | h1
    · rw [h1]
      exact List.mem_cons_self _ _
    · exact List.mem_cons_of_mem _ (ih (n + 1) p h1)

theorem mem_reindex {ls : List Line} {l2 : Line}
    (h : l2 ∈ (ls.enum.map fun p => { p.2 with idx := p.1 } : List Line)) :
    ∃ l ∈ ls, l2.from_bus = l.from_bus ∧ l2.to_bus = l.to_bus ∧
      l2.in_service = l.in_service ∧ l2.length_km = l.length_km := by
  rcases List.mem_map.mp h with ⟨p, hp, hpe⟩
  have hp2 : p ∈ List.enumFrom 0 ls := hp
  exact ⟨p.2, snd_mem_of_mem_enumFrom ls 0 p hp2, by rw [← hpe], by rw [← hpe],
    by rw [← hpe], by rw [← hpe]⟩

theorem reindex_idx (ls : List Line) (i : Nat)
    (hi : i < (ls.enum.map fun p => { p.2 with idx := p.1 } : List Line).length) :
    ((ls.enum.map fun p => { p.2 with idx := p.1 } : List Line).get ⟨i, hi⟩).idx = i := by
  simp [List.get_eq_getElem, List.getElem_map, List.getElem_enum]

theorem reindex_map_pair (ls : List Line) :
    ((ls.enum.map fun p => { p.2 with idx := p.1 } : List Line).map
        fun l => (l.from_bus, l.to_bus)) =
      ls.map fun l => (l.from_bus, l.to_bus) := by
  rw [List.map_map]
  have h1 : ((fun l : Line => (l.from_bus, l.to_bus)) ∘
      fun p : Nat × Line => { p.2 with idx := p.1 }) =
      (fun l : Line => (l.from_bus, l.to_bus)) ∘ Prod.snd := rfl
  rw [h1, ← List.map_map, List.enum_map_snd]

theorem map_pair_filter (ls : List Line) (c : Nat → Bool) :
    ((ls.filter fun l => c l.from_bus && c l.to_bus).map fun l => (l.from_bus, l.to_bus)) =
      ((ls.map fun l => (l.from_bus, l.to_bus)).filter fun e => c e.1 && c e.2) := by
  induction ls with
  | nil => rfl
  | cons l rest ih =>
    simp only [List.filter_cons, List.map_cons]
    cases h : c l.from_bus && c l.to_bus with
    | true => simp [h, ih]
    | false => simp [h, ih]


/-! #### The builder's post-prune state -/

theorem isConnectedG_spec {V : List Nat} {E : List (Nat × Nat)}
    (h : isConnectedG V E = true) {s b : Nat} (hs : s ∈ V) (hb : b ∈ V) :
    Reach E s b := by
  cases V with
  | nil => cases hs
  | cons v rest =>
    have hAll : (v :: rest).all (fun x => (reachSet E v).contains x) = true := h
    have hall : ∀ x ∈ v :: rest, Reach E v x := by
      intro x hx
      exact mem_reachSet_iff.mp (contains_iff.mp (List.all_eq_true.mp hAll x hx))
    exact (hall s hs).symm.trans (hall b hb)

theorem largest_eq {st : BState} (hne : st.nodes ≠ []) :
    ∃ r ∈ st.nodes, maxByLen (componentsOf st.nodes st.gedges) =
      st.nodes.filter fun b => (reachSet st.gedges r).contains b := by
  have h1 := @componentsOf_ne_nil st.nodes st.gedges hne
  have h2 := maxByLen_mem h1
  rcases componentsOf_mem_class _ h2 with ⟨r, hr, heq⟩
  exact ⟨r, hr, heq⟩

/-- What `build_grid_from_geojson` guarantees of the state it publishes:
the `BInv` record facts plus connectivity of the edge graph. -/
structure GoodState (hav : ℚ → ℚ → ℚ → ℚ → ℚ) (st : BState) : Prop where
  nodes_nodup : st.nodes.Nodup
  lines_wf : ∀ l ∈ st.lines, l.from_bus ∈ st.nodes ∧ l.to_bus ∈ st.nodes
  idx_pos : ∀ i (hi : i < st.lines.length), (st.lines.get ⟨i, hi⟩).idx = i
  in_service_all : ∀ l ∈ st.lines, l.in_service = true
  lengths : ∀ l ∈ st.lines, ∃ p : ℚ × ℚ × ℚ × ℚ,
    l.length_km = clampLength (hav p.1 p.2.1 p.2.2.1 p.2.2.2)
  pair_equiv : ∀ a b, adjacent st.gedges a b =
    adjacent (st.lines.map fun l => (l.from_bus, l.to_bus)) a b
  nonempty : st.nodes ≠ []
  connected : ∀ s ∈ st.nodes, ∀ b, b ∈ st.nodes ↔ Reach st.gedges s b

theorem goodState_of_connected {hav : ℚ → ℚ → ℚ → ℚ → ℚ} {st : BState}
    (hinv : BInv hav st) (hne : st.nodes ≠ [])
    (hc : isConnectedG st.nodes st.gedges = true) : GoodState hav st where
  nodes_nodup := hinv.nodes_nodup
  lines_wf := hinv.lines_wf
  idx_pos := hinv.idx_pos
  in_service_all := hinv.in_service_all
  lengths := hinv.lengths
  pair_equiv := hinv.pair_equiv
  nonempty := hne
  connected := by
    intro s hs b
    constructor
    · intro hb
      exact isConnectedG_spec hc hs hb
    · intro hr
      rcases reach_mem_nodesOf hr with h1 | h1
      · exact h1 ▸ hs
      · rcases mem_nodesOf_iff.mp h1 with ⟨e, he, hcase⟩
        have hm := hinv.edges_wf e he
        rcases hcase with rfl | rfl
        · exact hm.1
        · exact hm.2

theorem pruneState_good (hav : ℚ → ℚ → ℚ → ℚ → ℚ) {st : BState}
    (hinv : BInv hav st) (hne : st.nodes ≠ []) : GoodState hav (pruneState st) := by
  rcases @largest_eq st hne with ⟨r, hr, hL⟩
  have hcont : ∀ x, (maxByLen (componentsOf st.nodes st.gedges)).contains x = true ↔
      (x ∈ st.nodes ∧ Reach st.gedges r x) := by
    intro x
    constructor
    · intro hx
      have hx2 := contains_iff.mp hx
      rw [hL] at hx2
      rcases List.mem_filter.mp hx2 with ⟨h1, h2⟩
      exact ⟨h1, mem_reachSet_iff.mp (contains_iff.mp h2)⟩
    · intro hx
      apply contains_iff.mpr
      rw [hL]
      exact List.mem_filter.mpr ⟨hx.1, contains_iff.mpr (mem_reachSet_iff.mpr hx.2)⟩
  have hnodes : (pruneState st).nodes =
      st.nodes.filter fun b => (maxByLen (componentsOf st.nodes st.gedges)).contains b := rfl
  have hmemN : ∀ x, x ∈ (pruneState st).nodes ↔ (x ∈ st.nodes ∧ Reach st.gedges r x) := by
    intro x
    rw [hnodes]
    constructor
    · intro hx
      exact (hcont x).mp (List.mem_filter.mp hx).2
    · intro hx
      exact List.mem_filter.mpr ⟨hx.1, (hcont x).mpr hx⟩
  refine ⟨?_, ?_, ?_, ?_, ?_, ?_, ?_, ?_⟩
  · exact hinv.nodes_nodup.filter _
  · intro l2 hl2
    rcases mem_reindex hl2 with ⟨l, hl, hf, ht, _, _⟩
    rcases List.mem_filter.mp hl with ⟨hl3, hcl⟩
    rcases Bool.and_eq_true_iff.mp hcl with ⟨hc1, hc2⟩
    have hm := hinv.lines_wf l hl3
    constructor
    · rw [hf, hnodes]
      exact List.mem_filter.mpr ⟨hm.1, hc1⟩
    · rw [ht, hnodes]
      exact List.mem_filter.mpr ⟨hm.2, hc2⟩
  · intro i hi
    exact reindex_idx _ i hi
  · intro l2 hl2
    rcases mem_reindex hl2 with ⟨l, hl, _, _, hs, _⟩
    rw [hs]
    exact hinv.in_service_all l (List.mem_filter.mp hl).1
  · intro l2 hl2
    rcases mem_reindex hl2 with ⟨l, hl, _, _, _, hlen⟩
    rw [hlen]
    exact hinv.lengths l (List.mem_filter.mp hl).1
  · intro a b
    have hlines : (pruneState st).lines = ((st.lines.filter fun l =>
        (maxByLen (componentsOf st.nodes st.gedges)).contains l.from_bus &&
        (maxByLen (componentsOf st.nodes st.gedges)).contains l.to_bus).enum.map
      fun p => { p.2 with idx := p.1 }) := rfl
    show adjacent (st.gedges.filter fun e =>
        (maxByLen (componentsOf st.nodes st.gedges)).contains e.1 &&
        (maxByLen (componentsOf st.nodes st.gedges)).contains e.2) a b = _
    rw [hlines, adjacent_filter_both, reindex_map_pair, map_pair_filter,
      adjacent_filter_both, hinv.pair_equiv]
  · rw [hnodes]
    intro hnil
    have hrmem : r ∈ st.nodes.filter fun b =>
        (maxByLen (componentsOf st.nodes st.gedges)).contains b :=
      List.mem_filter.mpr ⟨hr, (hcont r).mpr ⟨hr, Reach.refl⟩⟩
    rw [hnil] at hrmem
    cases hrmem
  · intro s hs b
    have hsr := (hmemN s).mp hs
    constructor
    · intro hb
      have hbr := (hmemN b).mp hb
      have hsb : Reach st.gedges s b := hsr.2.symm.trans hbr.2
      exact reach_filter_class hinv.edges_wf hcont hsr.2 hsb
    · intro hb
      rcases reach_filter_endpoint hb with h1 | h1
      · exact h1 ▸ hs
      · exact (hmemN b).mpr ((hcont b).mp h1)


/-- What `attachSource` publishes, given a good state. -/
theorem attachSource_props (hav : ℚ → ℚ → ℚ → ℚ → ℚ) (subs : List SubFeature)
    (st2 : BState) (hgood : GoodState hav st2) :
    GridWF (attachSource subs st2) ∧
    (attachSource subs st2).nodes.Nodup ∧
    (∀ i (hi : i < (attachSource subs st2).line_list.length),
      ((attachSource subs st2).line_list.get ⟨i, hi⟩).idx = i) ∧
    (∀ l ∈ (attachSource subs st2).line_list, l.in_service = true) ∧
    (∀ l ∈ (attachSource subs st2).line_list, ∃ p : ℚ × ℚ × ℚ × ℚ,
      l.length_km = clampLength (hav p.1 p.2.1 p.2.2.1 p.2.2.2)) ∧
    sourceValid (attachSource subs st2) ∧
    (∀ b, b ∈ (attachSource subs st2).nodes ↔
      Reach (fullEdges (attachSource subs st2))
        ((attachSource subs st2).ext_grid_bus.toNat) b) := by
  have hsrc := findBestSourceBus_mem st2.nodes st2.coordMap subs hgood.nonempty
  refine ⟨hgood.lines_wf, hgood.nodes_nodup, hgood.idx_pos, hgood.in_service_all,
    hgood.lengths, ⟨hsrc.1, hsrc.2⟩, ?_⟩
  intro b
  have hchar := hgood.connected _ hsrc.2 b
  constructor
  · intro hb
    exact reach_congr (fun a c => hgood.pair_equiv a c) (hchar.mp hb)
  · intro hb
    exact hchar.mpr (reach_congr (fun a c => (hgood.pair_equiv a c).symm) hb)

/-- What `finishGrid` guarantees for every state satisfying the builder
invariant. -/
theorem finishGrid_props (hav : ℚ → ℚ → ℚ → ℚ → ℚ) (subs : List SubFeature)
    (st : BState) (hinv : BInv hav st) :
    GridWF (finishGrid subs st) ∧
    (finishGrid subs st).nodes.Nodup ∧
    (∀ i (hi : i < (finishGrid subs st).line_list.length),
      ((finishGrid subs st).line_list.get ⟨i, hi⟩).idx = i) ∧
    (∀ l ∈ (finishGrid subs st).line_list, l.in_service = true) ∧
    (∀ l ∈ (finishGrid subs st).line_list, ∃ p : ℚ × ℚ × ℚ × ℚ,
      l.length_km = clampLength (hav p.1 p.2.1 p.2.2.1 p.2.2.2)) ∧
    ((finishGrid subs st).nodes ≠ [] →
      sourceValid (finishGrid subs st) ∧
      ∀ b, b ∈ (finishGrid subs st).nodes ↔
        Reach (fullEdges (finishGrid subs st))
          ((finishGrid subs st).ext_grid_bus.toNat) b) := by
  by_cases h0 : st.busCounter = 0
  · have hnodes : st.nodes = [] := by
      have h1 := hinv.counter_eq
      rw [h0] at h1
      exact List.eq_nil_of_length_eq_zero h1.symm
    have hlines : st.lines = [] := by
      rw [List.eq_nil_iff_forall_not_mem]
      intro l hl
      have h2 := (hinv.lines_wf l hl).1
      rw [hnodes] at h2
      cases h2
    have hunf : finishGrid subs st =
        { nodes := st.nodes, gedges := st.gedges, bus_geo := st.bus_geo,
          bus_voltage := st.bus_voltage, line_list := st.lines, ext_grid_bus := -1 } := by
      unfold finishGrid
      rw [if_pos h0]
    rw [hunf]
    refine ⟨?_, hinv.nodes_nodup, hinv.idx_pos, hinv.in_service_all, hinv.lengths, ?_⟩
    · intro l hl
      have hl2 : l ∈ st.lines := hl
      rw [hlines] at hl2
      cases hl2
    · intro hne2
      have h3 : st.nodes ≠ [] := hne2
      exact absurd hnodes h3
  · have hne : st.nodes ≠ [] := fun hnil => h0 (by rw [hinv.counter_eq, hnil]; rfl)
    have hgood : GoodState hav
        (if isConnectedG st.nodes st.gedges then st else pruneState st) := by
      by_cases hc : isConnectedG st.nodes st.gedges = true
      · rw [if_pos hc]
        exact goodState_of_connected hinv hne hc
      · rw [if_neg hc]
        exact pruneState_good hav hinv hne
    have hunf : finishGrid subs st =
        attachSource subs (if isConnectedG st.nodes st.gedges then st else pruneState st) := by
      unfold finishGrid
      rw [if_neg h0]
    rw [hunf]
    have h := attachSource_props hav subs _ hgood
    exact ⟨h.1, h.2.1, h.2.2.1, h.2.2.2.1, h.2.2.2.2.1,
      fun _ => ⟨h.2.2.2.2.2.1, h.2.2.2.2.2.2⟩⟩

/-- Everything `build_grid_from_geojson` guarantees of the grid it
returns, in one place: endpoint well-formedness, node distinctness,
contiguous re-assigned line indices, all lines in service, every stored
length of `clampLength` shape, and — when any node survives — a valid
source with the full-topology graph connected. -/
theorem build_grid_props (hav : ℚ → ℚ → ℚ → ℚ → ℚ) (cf : ClassifiedFeatures) (ml : Nat) :
    GridWF (build_grid_from_geojson hav cf ml) ∧
    (build_grid_from_geojson hav cf ml).nodes.Nodup ∧
    (∀ i (hi : i < (build_grid_from_geojson hav cf ml).line_list.length),
      ((build_grid_from_geojson hav cf ml).line_list.get ⟨i, hi⟩).idx = i) ∧
    (∀ l ∈ (build_grid_from_geojson hav cf ml).line_list, l.in_service = true) ∧
    (∀ l ∈ (build_grid_from_geojson hav cf ml).line_list, ∃ p : ℚ × ℚ × ℚ × ℚ,
      l.length_km = clampLength (hav p.1 p.2.1 p.2.2.1 p.2.2.2)) ∧
    ((build_grid_from_geojson hav cf ml).nodes ≠ [] →
      sourceValid (build_grid_from_geojson hav cf ml) ∧
      ∀ b, b ∈ (build_grid_from_geojson hav cf ml).nodes ↔
        Reach (fullEdges (build_grid_from_geojson hav cf ml))
          ((build_grid_from_geojson hav cf ml).ext_grid_bus.toNat) b) :=
  finishGrid_props hav cf.substations _
    (processFeatures_spec hav _ emptyBState 0 (bInv_empty hav))


/-! #### Concrete builder inputs for the claims about built grids -/

/-- Constant distance stub (the embedding takes the haversine distance as
a function parameter; `1` km is above the clamp threshold). -/
def hav1 : ℚ → ℚ → ℚ → ℚ → ℚ := fun _ _ _ _ => 1

/-- Distance stub of `1/200` km = 0.005 km: above the source's clamp
threshold 0.001 km but below the claimed floor 0.01 km. -/
def hav200 : ℚ → ℚ → ℚ → ℚ → ℚ := fun _ _ _ _ => mkRat 1 200

/-- A two-point way. -/
def fC2 : LineFeature :=
  { fid := some "w1", voltage := none, power := some "line",
    coords := [[0, 0], [1, 0]] }

def cfC2 : ClassifiedFeatures :=
  { lines := [fC2], minor_lines := [], cables := [], substations := [] }

/-- A way that retraces the same two points: three segments, one graph
edge. -/
def fDup : LineFeature :=
  { fid := some "w2", voltage := none, power := some "line",
    coords := [[0, 0], [1, 0], [0, 0], [1, 0]] }

def cfDup : ClassifiedFeatures :=
  { lines := [fDup], minor_lines := [], cables := [], substations := [] }

/-- A two-point way (C9 inputs). -/
def fShort : LineFeature :=
  { fid := some "w3", voltage := none, power := some "line",
    coords := [[0, 0], [1, 0]] }

def cfShort : ClassifiedFeatures :=
  { lines := [fShort], minor_lines := [], cables := [], substations := [] }

/-- C2: for every classified-feature input (and distance function), if the
built grid has at least one node then its source is a member of the node
set and the full-topology graph (service flags ignored) is connected: the
set of nodes reachable from the source equals the entire node set. -/
theorem C2_builder_connected (hav : ℚ → ℚ → ℚ → ℚ → ℚ) (cf : ClassifiedFeatures)
    (ml : Nat) (hne : (build_grid_from_geojson hav cf ml).nodes ≠ []) :
    sourceValid (build_grid_from_geojson hav cf ml) ∧
    ∀ b, b ∈ (build_grid_from_geojson hav cf ml).nodes ↔
      Reach (fullEdges (build_grid_from_geojson hav cf ml))
        ((build_grid_from_geojson hav cf ml).ext_grid_bus.toNat) b :=
  (build_grid_props hav cf ml).2.2.2.2.2 hne

theorem C2_builder_connected_witness :
    (build_grid_from_geojson hav1 cfC2 5000).nodes ≠ [] ∧
    sourceValid (build_grid_from_geojson hav1 cfC2 5000) ∧
    (1 ∈ (build_grid_from_geojson hav1 cfC2 5000).nodes ↔
      Reach (fullEdges (build_grid_from_geojson hav1 cfC2 5000))
        ((build_grid_from_geojson hav1 cfC2 5000).ext_grid_bus.toNat) 1) :=
  ⟨by decide, (C2_builder_connected hav1 cfC2 5000 (by decide)).1,
    (C2_builder_connected hav1 cfC2 5000 (by decide)).2 1⟩

/-- C7 counterexample: a way that retraces the same two points stores
three line records over a single graph edge, so the stored record count
(3) differs from `num_lines = G.number_of_edges()` (1) — the claim's
"number of edge records equals the grid's num_edges" fails — while the
indices are still the contiguous range over the records. -/
theorem C7_num_edges_counterexample :
    (build_grid_from_geojson hav1 cfDup 5000).line_list.length = 3 ∧
    (build_grid_from_geojson hav1 cfDup 5000).num_lines = 1 ∧
    (build_grid_from_geojson hav1 cfDup 5000).line_list.map Line.idx = [0, 1, 2] ∧
    (3 : Nat) ≠ 1 :=
  ⟨by decide, by decide, by decide, by decide⟩

/-- C7 (amended): for every grid the builder returns, the i-th stored
line record carries index i, i.e. the indices are the contiguous range
over the stored records `[0, len(line_list))`; the record count can
exceed `num_lines` (`G.number_of_edges()`), which deduplicates repeated
segments (see the counterexample). -/
theorem C7_line_indices_contiguous (hav : ℚ → ℚ → ℚ → ℚ → ℚ)
    (cf : ClassifiedFeatures) (ml : Nat) (i : Nat)
    (hi : i < (build_grid_from_geojson hav cf ml).line_list.length) :
    ((build_grid_from_geojson hav cf ml).line_list.get ⟨i, hi⟩).idx = i :=
  (build_grid_props hav cf ml).2.2.1 i hi

theorem C7_line_indices_contiguous_witness :
    1 < (build_grid_from_geojson hav1 cfDup 5000).line_list.length ∧
    ((build_grid_from_geojson hav1 cfDup 5000).line_list.get ⟨1, by decide⟩).idx = 1 :=
  ⟨by decide, C7_line_indices_contiguous hav1 cfDup 5000 1 (by decide)⟩

/-- The source's clamp (`if length_km < 0.001: length_km = 0.01`) bounds
every result below by 0.001 km — but not by 0.01 km. -/
theorem clampLength_ge (x : ℚ) : mkRat 1 1000 ≤ clampLength x := by
  unfold clampLength
  split
  · decide
  · rename_i h
    exact le_of_not_lt h

/-- C9 counterexample: the builder clamps only lengths below 0.001 km
(raising those to 0.01); a computed length of 0.005 km is stored as-is,
below the claimed 0.01 km floor. -/
theorem C9_min_length_counterexample :
    (build_grid_from_geojson hav200 cfShort 5000).line_list.map Line.length_km =
      [mkRat 1 200] ∧
    mkRat 1 200 < mkRat 1 100 ∧
    clampLength (mkRat 1 200) = mkRat 1 200 :=
  ⟨by decide, by decide, by decide⟩

/-- C9 (amended): every stored line length is at least 0.001 km: computed
lengths below 0.001 km are replaced by 0.01 km, and anything else is
stored unchanged — so lengths in [0.001, 0.01) survive below the claimed
0.01 km floor (see the counterexample). -/
theorem C9_min_length_floor (hav : ℚ → ℚ → ℚ → ℚ → ℚ) (cf : ClassifiedFeatures)
    (ml : Nat) :
    ∀ l ∈ (build_grid_from_geojson hav cf ml).line_list,
      mkRat 1 1000 ≤ l.length_km := by
  intro l hl
  rcases (build_grid_props hav cf ml).2.2.2.2.1 l hl with ⟨p, hp⟩
  rw [hp]
  exact clampLength_ge _

theorem C9_min_length_floor_witness :
    mkRat 1 1000 ≤ ((build_grid_from_geojson hav200 cfShort 5000).line_list.get
      ⟨0, by decide⟩).length_km :=
  C9_min_length_floor hav200 cfShort 5000
    ((build_grid_from_geojson hav200 cfShort 5000).line_list.get ⟨0, by decide⟩)
    (List.get_mem _ 0 (by decide))


/-! ### Bridge-fault selection (`find_bridge_fault`, power_flow.py 66-140) -/

/-- `grid.G.remove_edge(u, v)` on the undirected edge list. -/
def removeEdge (E : List (Nat × Nat)) (u v : Nat) : List (Nat × Nat) :=
  E.filter fun e => !((e.1 == u && e.2 == v) || (e.1 == v && e.2 == u))

/-- A bridge: an edge of `E` whose removal disconnects its endpoints. -/
def isBridge (E : List (Nat × Nat)) (u v : Nat) : Bool :=
  adjacent E u v && !((reachSet (removeEdge E u v) u).contains v)

/-- The bridges of an edge list, in storage order.  `nx.bridges`
enumerates the same set (the selection engine below takes the enumeration
as an explicit parameter, so only membership matters). -/
def bridgeList (E : List (Nat × Nat)) : List (Nat × Nat) :=
  E.filter fun e => isBridge E e.1 e.2

/-- Index of the first record of `line_list` matching the endpoints in
either orientation (lines 107-109 and 135-137). -/
def findLineIdx (ls : List Line) (u v : Nat) : Option Nat :=
  (ls.enum.find? fun p => (p.2.from_bus == u && p.2.to_bus == v) ||
    (p.2.from_bus == v && p.2.to_bus == u)).map Prod.fst

/-- `target_count = int(grid.num_buses * 0.1)` (line 97); for node counts
in scope the float product truncates to exact division by ten. -/
def targetCount (g : GridNetwork) : Int := Int.ofNat (g.nodes.length / 10)

/-- Lines 111-118: number of buses cut off from the source when `(u, v)`
is removed from the full stored graph; the `except` branch (source absent
from the graph, e.g. `ext_grid_bus = -1`) yields 0. -/
def disconnectCount (g : GridNetwork) (u v : Nat) : Int :=
  if 0 ≤ g.ext_grid_bus ∧ g.ext_grid_bus.toNat ∈ g.nodes then
    (g.nodes.length : Int) -
      ((reachSet (removeEdge g.gedges u v) g.ext_grid_bus.toNat).length : Int)
  else 0

/-- One iteration of the selection loop (lines 105-125); the state is
`(best_fault_idx, best_disconnect_count)`, initially `(-1, 0)`.  A bridge
with no matching line record is skipped (the inner `for` finds nothing). -/
def fbfStep (g : GridNetwork) (best : Int × Int) (e : Nat × Nat) : Int × Int :=
  match findLineIdx g.line_list e.1 e.2 with
  | none => best
  | some i =>
    if (disconnectCount g e.1 e.2 - targetCount g).natAbs <
        (best.2 - targetCount g).natAbs then
      (Int.ofNat i, disconnectCount g e.1 e.2)
    else best

/-- Embeds `find_bridge_fault` for at most 50 bridges (where
`sample_bridges = bridges`); the bridge enumeration `bs` of
`nx.bridges(grid.G)` — the FULL stored graph — is a parameter, as is the
random oracle `pick` of the `trigger_random_fault` fallback. -/
def find_bridge_fault (bs : List (Nat × Nat)) (pick : List Nat → Nat)
    (g : GridNetwork) : GridNetwork × Option FaultInfo :=
  match bs with
  | [] => trigger_random_fault pick g
  | b0 :: _ =>
    let best := bs.foldl (fbfStep g) (-1, 0)
    if 0 ≤ best.1 then trigger_fault g best.1
    else
      match findLineIdx g.line_list b0.1 b0.2 with
      | some i => trigger_fault g (Int.ofNat i)
      | none => trigger_random_fault pick g

/-- `abs(disconnected - target_count)` for a candidate bridge. -/
def distTo (g : GridNetwork) (e : Nat × Nat) : Nat :=
  (disconnectCount g e.1 e.2 - targetCount g).natAbs

/-- SPEC-WORDED selection (the claim's sentences): the first bridge whose
disconnect count has minimal absolute distance to the 10% target.
Written from the spec for comparison with the code's fold. -/
def specArgmin (g : GridNetwork) (bs : List (Nat × Nat)) : Option (Nat × Nat) :=
  bs.find? fun e => bs.all fun e2 => distTo g e ≤ distTo g e2


theorem exists_min_elem {α : Type} (f : α → Nat) :
    ∀ l : List α, l ≠ [] → ∃ e ∈ l, ∀ e2 ∈ l, f e ≤ f e2 := by
  intro l
  induction l with
  | nil => intro h; exact absurd rfl h
  | cons a rest ih =>
    intro _
    by_cases hr : rest = []
    · subst hr
      refine ⟨a, List.mem_cons_self _ _, ?_⟩
      intro e2 he2
      rcases List.mem_cons.mp he2 with h2 | h2
      · subst h2; exact le_rfl
      · cases h2
    · rcases ih hr with ⟨e, he, hmin⟩
      by_cases hle : f a ≤ f e
      · refine ⟨a, List.mem_cons_self _ _, ?_⟩
        intro e2 he2
        rcases List.mem_cons.mp he2 with h2 | h2
        · subst h2; exact le_rfl
        · exact le_trans hle (hmin e2 h2)
      · refine ⟨e, List.mem_cons_of_mem _ he, ?_⟩
        intro e2 he2
        rcases List.mem_cons.mp he2 with h2 | h2
        · subst h2; exact le_of_not_le hle
        · exact hmin e2 h2

theorem find?_decomp {α : Type} (p : α → Bool) :
    ∀ (l : List α) (a : α), l.find? p = some a →
      ∃ l1 l2, l = l1 ++ a :: l2 ∧ p a = true ∧ ∀ x ∈ l1, p x = false := by
  intro l
  induction l with
  | nil => intro a h; cases h
  | cons b rest ih =>
    intro a h
    cases hb : p b with
    | true =>
      rw [List.find?_cons_of_pos _ hb] at h
      injection h with h2
      subst h2
      exact ⟨[], rest, rfl, hb, by intro x hx; cases hx⟩
    | false =>
      have hb2 : ¬ p b = true := by simp [hb]
      rw [List.find?_cons_of_neg _ hb2] at h
      rcases ih a h with ⟨l1, l2, heq, hpa, hpre⟩
      refine ⟨b :: l1, l2, by rw [heq]; rfl, hpa, ?_⟩
      intro x hx
      rcases List.mem_cons.mp hx with h2 | h2
      · rw [h2]; exact hb
      · exact hpre x h2

theorem find?_isSome_of_exists {α : Type} (p : α → Bool) :
    ∀ l : List α, (∃ x ∈ l, p x = true) → ∃ a, l.find? p = some a := by
  intro l
  induction l with
  | nil =>
    intro h
    rcases h with ⟨x, hx, _⟩
    cases hx
  | cons b rest ih =>
    intro h
    cases hb : p b with
    | true => exact ⟨b, List.find?_cons_of_pos _ hb⟩
    | false =>
      rcases h with ⟨x, hx, hpx⟩
      rcases List.mem_cons.mp hx with h2 | h2
      · rw [h2] at hpx
        rw [hpx] at hb
        exact Bool.noConfusion hb
      · rcases ih ⟨x, h2, hpx⟩ with ⟨a, ha⟩
        have hb2 : ¬ p b = true := by simp [hb]
        exact ⟨a, by rw [List.find?_cons_of_neg _ hb2]; exact ha⟩

theorem fbf_fold_no_update (g : GridNetwork) :
    ∀ (p : List (Nat × Nat)) (bcur : Int × Int),
      (∀ e ∈ p, ¬ distTo g e < (bcur.2 - targetCount g).natAbs) →
      p.foldl (fbfStep g) bcur = bcur := by
  intro p
  induction p with
  | nil => intro bcur _; rfl
  | cons e rest ih =>
    intro bcur h
    rw [List.foldl_cons]
    have hstep : fbfStep g bcur e = bcur := by
      unfold fbfStep
      cases hf : findLineIdx g.line_list e.1 e.2 with
      | none => rfl
      | some i =>
        have hne : ¬ (disconnectCount g e.1 e.2 - targetCount g).natAbs <
            (bcur.2 - targetCount g).natAbs := h e (List.mem_cons_self _ _)
        show (if (disconnectCount g e.1 e.2 - targetCount g).natAbs <
            (bcur.2 - targetCount g).natAbs then (Int.ofNat i, disconnectCount g e.1 e.2)
          else bcur) = bcur
        rw [if_neg hne]
    rw [hstep]
    exact ih bcur fun e2 he2 => h e2 (List.mem_cons_of_mem _ he2)

theorem fbf_fold_gt (g : GridNetwork) (m : Nat) :
    ∀ (p : List (Nat × Nat)) (bcur : Int × Int),
      (∀ e ∈ p, m < distTo g e) →
      m < (bcur.2 - targetCount g).natAbs →
      m < ((p.foldl (fbfStep g) bcur).2 - targetCount g).natAbs := by
  intro p
  induction p with
  | nil => intro bcur _ hb; exact hb
  | cons e rest ih =>
    intro bcur h hb
    rw [List.foldl_cons]
    refine ih _ (fun e2 he2 => h e2 (List.mem_cons_of_mem _ he2)) ?_
    unfold fbfStep
    cases hf : findLineIdx g.line_list e.1 e.2 with
    | none => exact hb
    | some i =>
      by_cases hcond : (disconnectCount g e.1 e.2 - targetCount g).natAbs <
          (bcur.2 - targetCount g).natAbs
      · show m < (((if (disconnectCount g e.1 e.2 - targetCount g).natAbs <
            (bcur.2 - targetCount g).natAbs then (Int.ofNat i, disconnectCount g e.1 e.2)
          else bcur) : Int × Int).2 - targetCount g).natAbs
        rw [if_pos hcond]
        exact h e (List.mem_cons_self _ _)
      · show m < (((if (disconnectCount g e.1 e.2 - targetCount g).natAbs <
            (bcur.2 - targetCount g).natAbs then (Int.ofNat i, disconnectCount g e.1 e.2)
          else bcur) : Int × Int).2 - targetCount g).natAbs
        rw [if_neg hcond]
        exact hb

theorem fbf_fold_first_argmin (g : GridNetwork) (p1 p2 : List (Nat × Nat))
    (e : Nat × Nat) (i : Nat)
    (hfi : findLineIdx g.line_list e.1 e.2 = some i)
    (hbeat : distTo g e < (targetCount g).natAbs)
    (hp1 : ∀ e1 ∈ p1, distTo g e < distTo g e1)
    (hp2 : ∀ e2 ∈ p2, distTo g e ≤ distTo g e2) :
    (p1 ++ e :: p2).foldl (fbfStep g) (-1, 0) =
      (Int.ofNat i, disconnectCount g e.1 e.2) := by
  rw [List.foldl_append, List.foldl_cons]
  have hbase : distTo g e < ((((-1 : Int), (0 : Int)) : Int × Int).2 - targetCount g).natAbs := by
    have h2 : ((0 : Int) - targetCount g).natAbs = (targetCount g).natAbs := by
      rw [Int.zero_sub, Int.natAbs_neg]
    rw [show (((-1 : Int), (0 : Int)) : Int × Int).2 = (0 : Int) from rfl, h2]
    exact hbeat
  have h1 := fbf_fold_gt g (distTo g e) p1 ((-1 : Int), (0 : Int)) hp1 hbase
  have hstep : fbfStep g (p1.foldl (fbfStep g) ((-1 : Int), (0 : Int))) e =
      (Int.ofNat i, disconnectCount g e.1 e.2) := by
    unfold fbfStep
    rw [hfi]
    show (if (disconnectCount g e.1 e.2 - targetCount g).natAbs <
        ((p1.foldl (fbfStep g) ((-1 : Int), (0 : Int))).2 - targetCount g).natAbs then
      (Int.ofNat i, disconnectCount g e.1 e.2)
    else p1.foldl (fbfStep g) ((-1 : Int), (0 : Int))) = _
    have h1b : (disconnectCount g e.1 e.2 - targetCount g).natAbs <
        ((p1.foldl (fbfStep g) ((-1 : Int), (0 : Int))).2 - targetCount g).natAbs := h1
    rw [if_pos h1b]
  rw [hstep]
  apply fbf_fold_no_update
  intro e2 he2 hlt
  have h3 : (((Int.ofNat i, disconnectCount g e.1 e.2) : Int × Int).2 -
      targetCount g).natAbs = distTo g e := rfl
  rw [h3] at hlt
  exact absurd hlt (not_lt.mpr (hp2 e2 he2))


/-- C5 (amended): `find_bridge_fault` works on the bridges of the FULL
stored graph (service flags ignored — `grid.G` keeps faulted edges), not
the in-service subgraph; with no bridges it delegates to
`trigger_random_fault`; when every bridge has a matching line record it
faults the line of the FIRST bridge with minimal |disconnected - target|,
but only if that minimum beats the spurious zero-count baseline
|0 - target|; otherwise it falls back to the first bridge's line. -/
theorem C5_find_bridge_fault_selection (bs : List (Nat × Nat))
    (pick : List Nat → Nat) (g : GridNetwork)
    (hmatch : ∀ e ∈ bs, (findLineIdx g.line_list e.1 e.2).isSome = true) :
    (bs = [] → find_bridge_fault bs pick g = trigger_random_fault pick g) ∧
    ((∃ e ∈ bs, distTo g e < (targetCount g).natAbs) →
      ∃ e i, specArgmin g bs = some e ∧ findLineIdx g.line_list e.1 e.2 = some i ∧
        find_bridge_fault bs pick g = trigger_fault g (Int.ofNat i)) ∧
    ((∀ e ∈ bs, ¬ distTo g e < (targetCount g).natAbs) →
      ∀ b0 bs2, bs = b0 :: bs2 →
        ∃ i, findLineIdx g.line_list b0.1 b0.2 = some i ∧
          find_bridge_fault bs pick g = trigger_fault g (Int.ofNat i)) := by
  have hzero : ∀ e2 : Nat × Nat, ((((-1 : Int), (0 : Int)) : Int × Int).2 -
      targetCount g).natAbs = (targetCount g).natAbs := by
    intro _
    show ((0 : Int) - targetCount g).natAbs = _
    rw [Int.zero_sub, Int.natAbs_neg]
  refine ⟨?_, ?_, ?_⟩
  · intro hbs
    subst hbs
    rfl
  · intro hbeat
    rcases hbeat with ⟨eb, hebmem, hebbeat⟩
    have hne : bs ≠ [] := List.ne_nil_of_mem hebmem
    rcases exists_min_elem (distTo g) bs hne with ⟨em, hmm, hminm⟩
    rcases find?_isSome_of_exists (fun e => bs.all fun e2 => distTo g e ≤ distTo g e2) bs
        ⟨em, hmm, by
          simp only [List.all_eq_true, decide_eq_true_eq]
          exact fun e2 he2 => hminm e2 he2⟩ with ⟨es, hfes⟩
    rcases find?_decomp _ bs es hfes with ⟨p1, p2, hdec, hps, hpre⟩
    have hsmin : ∀ e2 ∈ bs, distTo g es ≤ distTo g e2 := by
      intro e2 he2
      have := List.all_eq_true.mp hps e2 he2
      simpa using this
    have hsbeat : distTo g es < (targetCount g).natAbs :=
      lt_of_le_of_lt (hsmin eb hebmem) hebbeat
    have hsmem : es ∈ bs := by
      rw [hdec]
      exact List.mem_append.mpr (Or.inr (List.mem_cons_self _ _))
    rcases Option.isSome_iff_exists.mp (hmatch es hsmem) with ⟨i, hfi⟩
    have hp1 : ∀ e1 ∈ p1, distTo g es < distTo g e1 := by
      intro e1 he1
      have hfalse := hpre e1 he1
      have hnotall : ¬ ∀ e2 ∈ bs, distTo g e1 ≤ distTo g e2 := by
        intro hall
        have : (bs.all fun e2 => distTo g e1 ≤ distTo g e2) = true := by
          simp only [List.all_eq_true, decide_eq_true_eq]
          exact hall
        rw [this] at hfalse
        exact Bool.noConfusion hfalse
      rcases not_forall.mp hnotall with ⟨e2, he2⟩
      rcases Classical.not_imp.mp he2 with ⟨he2mem, he2lt⟩
      have h4 : distTo g e2 < distTo g e1 := lt_of_not_le he2lt
      exact lt_of_le_of_lt (hsmin e2 he2mem) h4
    have hp2 : ∀ e2 ∈ p2, distTo g es ≤ distTo g e2 := by
      intro e2 he2
      refine hsmin e2 ?_
      rw [hdec]
      exact List.mem_append.mpr (Or.inr (List.mem_cons_of_mem _ he2))
    refine ⟨es, i, hfes, hfi, ?_⟩
    have hfold : bs.foldl (fbfStep g) ((-1 : Int), (0 : Int)) =
        (Int.ofNat i, disconnectCount g es.1 es.2) := by
      rw [hdec]
      exact fbf_fold_first_argmin g p1 p2 es i hfi hsbeat hp1 hp2
    cases hbs : bs with
    | nil => exact absurd hbs hne
    | cons b0 rest =>
      rw [hbs] at hfold
      have hunf : find_bridge_fault (b0 :: rest) pick g =
          (if 0 ≤ ((b0 :: rest).foldl (fbfStep g) ((-1 : Int), (0 : Int))).1 then
            trigger_fault g ((b0 :: rest).foldl (fbfStep g) ((-1 : Int), (0 : Int))).1
          else match findLineIdx g.line_list b0.1 b0.2 with
            | some j => trigger_fault g (Int.ofNat j)
            | none => trigger_random_fault pick g) := rfl
      rw [hunf, hfold]
      have hpos : (0 : Int) ≤ (((Int.ofNat i, disconnectCount g es.1 es.2) :
          Int × Int)).1 := Int.ofNat_nonneg i
      rw [if_pos hpos]
  · intro hnb b0 bs2 hbs
    rcases Option.isSome_iff_exists.mp
        (hmatch b0 (hbs ▸ List.mem_cons_self b0 bs2)) with ⟨i, hfi⟩
    have hfold : bs.foldl (fbfStep g) ((-1 : Int), (0 : Int)) = ((-1 : Int), (0 : Int)) := by
      apply fbf_fold_no_update
      intro e he hlt
      rw [hzero e] at hlt
      exact hnb e he hlt
    subst hbs
    refine ⟨i, hfi, ?_⟩
    have hunf : find_bridge_fault (b0 :: bs2) pick g =
        (if 0 ≤ ((b0 :: bs2).foldl (fbfStep g) ((-1 : Int), (0 : Int))).1 then
          trigger_fault g ((b0 :: bs2).foldl (fbfStep g) ((-1 : Int), (0 : Int))).1
        else match findLineIdx g.line_list b0.1 b0.2 with
          | some j => trigger_fault g (Int.ofNat j)
          | none => trigger_random_fault pick g) := rfl
    rw [hunf, hfold]
    have hneg : ¬ (0 : Int) ≤ ((((-1 : Int), (0 : Int)) : Int × Int)).1 := by decide
    rw [if_neg hneg, hfi]


/-- Deterministic stand-in for `np.random.choice`: first element. -/
def pick0 : List Nat → Nat := fun l => l.headD 0

/-- An in-service 4-cycle plus an out-of-service pendant line (0, 4).
The stored graph `G` keeps the pendant edge. -/
def ex5 : GridNetwork :=
  { nodes := [0, 1, 2, 3, 4],
    gedges := [(0, 1), (1, 2), (2, 3), (3, 0), (0, 4)],
    bus_geo := [], bus_voltage := [],
    line_list := [
      { idx := 0, from_bus := 0, to_bus := 1, voltage_kv := 11, name := "L0",
        power_type := "line", length_km := 1, in_service := true },
      { idx := 1, from_bus := 1, to_bus := 2, voltage_kv := 11, name := "L1",
        power_type := "line", length_km := 1, in_service := true },
      { idx := 2, from_bus := 2, to_bus := 3, voltage_kv := 11, name := "L2",
        power_type := "line", length_km := 1, in_service := true },
      { idx := 3, from_bus := 3, to_bus := 0, voltage_kv := 11, name := "L3",
        power_type := "line", length_km := 1, in_service := true },
      { idx := 4, from_bus := 0, to_bus := 4, voltage_kv := 11, name := "L4",
        power_type := "line", length_km := 1, in_service := false }],
    ext_grid_bus := 0 }

/-- A 3-bus path, everything in service. -/
def ex5b : GridNetwork :=
  { nodes := [0, 1, 2],
    gedges := [(0, 1), (1, 2)],
    bus_geo := [], bus_voltage := [],
    line_list := [
      { idx := 0, from_bus := 0, to_bus := 1, voltage_kv := 11, name := "L0",
        power_type := "line", length_km := 1, in_service := true },
      { idx := 1, from_bus := 1, to_bus := 2, voltage_kv := 11, name := "L1",
        power_type := "line", length_km := 1, in_service := true }],
    ext_grid_bus := 0 }

/-- A 12-bus path (large enough for a nonzero 10% target). -/
def ex5w : GridNetwork :=
  { nodes := List.range 12,
    gedges := (List.range 11).map fun i => (i, i + 1),
    bus_geo := [], bus_voltage := [],
    line_list := (List.range 11).map fun i =>
      { idx := i, from_bus := i, to_bus := i + 1, voltage_kv := 11,
        name := "L", power_type := "line", length_km := 1, in_service := true },
    ext_grid_bus := 0 }

/-- C5 counterexample.  (a) The code enumerates bridges of the FULL
stored graph, not the in-service subgraph: in `ex5` the in-service
subgraph (a cycle) has no bridges, so the claim mandates
`trigger_random_fault` behaviour, yet the code faults the out-of-service
pendant line 4.  (b) The zero-initialized best count breaks the argmin:
in `ex5b` the unique minimal-|d - target| bridge is (1, 2), whose line is
record 1, but no bridge beats |0 - target| = 0, so the code falls back to
the FIRST bridge's line 0. -/
theorem C5_find_bridge_fault_counterexample :
    bridgeList (activeEdges ex5) = [] ∧
    bridgeList ex5.gedges = [(0, 4)] ∧
    (find_bridge_fault (bridgeList ex5.gedges) pick0 ex5).2 =
      some { line_idx := 4, from_bus := 0, to_bus := 4, line_name := "L4",
             voltage_kv := 11 } ∧
    (trigger_random_fault pick0 ex5).2 =
      some { line_idx := 0, from_bus := 0, to_bus := 1, line_name := "L0",
             voltage_kv := 11 } ∧
    (find_bridge_fault (bridgeList ex5.gedges) pick0 ex5).2 ≠
      (trigger_random_fault pick0 ex5).2 ∧
    specArgmin ex5b (bridgeList ex5b.gedges) = some (1, 2) ∧
    findLineIdx ex5b.line_list 1 2 = some 1 ∧
    (find_bridge_fault (bridgeList ex5b.gedges) pick0 ex5b).2 =
      some { line_idx := 0, from_bus := 0, to_bus := 1, line_name := "L0",
             voltage_kv := 11 } :=
  ⟨by decide, by decide, by decide, by decide, by decide, by decide, by decide, by decide⟩

theorem C5_find_bridge_fault_selection_witness :
    (∀ e ∈ ([(0, 1), (10, 11)] : List (Nat × Nat)),
      (findLineIdx ex5w.line_list e.1 e.2).isSome = true) ∧
    (∃ e ∈ ([(0, 1), (10, 11)] : List (Nat × Nat)),
      distTo ex5w e < (targetCount ex5w).natAbs) ∧
    (∃ e i, specArgmin ex5w [(0, 1), (10, 11)] = some e ∧
      findLineIdx ex5w.line_list e.1 e.2 = some i ∧
      find_bridge_fault [(0, 1), (10, 11)] pick0 ex5w =
        trigger_fault ex5w (Int.ofNat i)) :=
  ⟨by decide, by decide,
    (C5_find_bridge_fault_selection [(0, 1), (10, 11)] pick0 ex5w (by decide)).2.1
      (by decide)⟩

end ElecSim
